import Mathlib

/-!
# Verification of the euler-ai diff/review subsystem

A shallow embedding, in Lean 4, of the diff-and-review logic of the
euler-ai browser IDE:

* the diff processing functions of `src/components/composer/Composer.js`
  (`cleanDiffOutput`, `generateDiff`, `createCompleteFileView`,
  `prepareSourceDiffView`) together with the apply / revert / reject
  button state machine and the active-preview management of that file;
* the `RateLimiter` of `src/components/codeCompletion/config.js`
  (context-staleness queue filtering, backoff bounds).

JavaScript strings are modelled as Lean `String`s; the handful of
JS string/array primitives the code uses (`split`, `join`, `includes`,
`startsWith`, `substring`, `trim`, `slice`) are given explicit
executable models over `List Char` so that every theorem can be
evaluated on concrete inputs.

The third-party diff library (`createTwoFilesPatch` + `parsePatch` from
jsdiff, loaded from a CDN and therefore not part of the repository
sources) is modelled from the specification: a structural line-level
diff between the two texts, grouped into ordered hunks with a context
window of two lines around each change.
-/

/-! ## JavaScript string primitives, modelled over `List Char` -/

/-- Model of JavaScript `String.prototype.includes` on char lists:
`jsIncludesL pat l` is true iff `pat` occurs contiguously in `l`. -/
def jsIncludesL (pat : List Char) : List Char → Bool
  | [] => pat.isEmpty
  | c :: rest => pat.isPrefixOf (c :: rest) || jsIncludesL pat rest

/-- Model of `str.split(pat)[0]` (for nonempty `pat`): the longest
prefix of `l` not containing an occurrence of `pat`. -/
def splitHeadL (pat : List Char) : List Char → List Char
  | [] => []
  | c :: rest => if pat.isPrefixOf (c :: rest) then [] else c :: splitHeadL pat rest

/-- Model of JavaScript `String.prototype.trim`: drop whitespace from
both ends. -/
def trimL (l : List Char) : List Char :=
  ((l.dropWhile Char.isWhitespace).reverse.dropWhile Char.isWhitespace).reverse

/-- Splitting a char list at newline characters, exactly as JavaScript
`str.split('\n')` does: the result is always nonempty, and a trailing
newline yields a trailing empty component. -/
def splitNLL : List Char → List (List Char)
  | [] => [[]]
  | c :: rest =>
    if c = '\n' then [] :: splitNLL rest
    else
      match splitNLL rest with
      | [] => [[c]]
      | g :: gs => (c :: g) :: gs

/-- JavaScript `str.includes(pat)` on Lean strings. -/
def jsIncludes (s pat : String) : Bool := jsIncludesL pat.toList s.toList

/-- JavaScript `str.startsWith(pat)` on Lean strings. -/
def jsStartsWith (s pat : String) : Bool := pat.toList.isPrefixOf s.toList

/-- JavaScript `str.endsWith(pat)` on Lean strings. -/
def jsEndsWith (s pat : String) : Bool := pat.toList.isSuffixOf s.toList

/-- JavaScript `str.substring(1)` on Lean strings. -/
def jsSubstr1 (s : String) : String := String.mk (s.toList.drop 1)

/-- JavaScript `str.trim()` on Lean strings. -/
def jsTrim (s : String) : String := String.mk (trimL s.toList)

/-- JavaScript `str.split('\n')` on Lean strings. -/
def jsSplitNL (s : String) : List String := (splitNLL s.toList).map String.mk

/-- JavaScript `arr.join('\n')` for an array of strings. -/
def joinNL : List String → String
  | [] => ""
  | [x] => x
  | x :: y :: rest => x ++ "\n" ++ joinNL (y :: rest)

@[simp] theorem toList_mk (l : List Char) : (String.mk l).toList = l := rfl

@[simp] theorem mk_toList (s : String) : String.mk s.toList = s := rfl

theorem toList_append (a b : String) : (a ++ b).toList = a.toList ++ b.toList := rfl

/-! ## The diff data model (`Hunk`, `Diff`)

This mirrors the objects returned by jsdiff's `parsePatch`: a diff is an
ordered list of hunks; each hunk records its (1-based) start line and
line count in the original and proposed files, and its lines, each line
carrying its unified-diff marker character (`' '` context, `'-'`
removed, `'+'` added) as its first character. -/

structure Hunk where
  oldStart : Int
  oldLines : Int
  newStart : Int
  newLines : Int
  lines : List String
  deriving Repr, DecidableEq

structure Diff where
  hunks : List Hunk
  deriving Repr, DecidableEq

/-! ## `cleanDiffOutput` (Composer.js lines 686-701) -/

/-- The fenced-code marker that may leak from AI output. -/
def fenceMarker : String := "```"

/-- The literal `"I've"` tested by `cleanDiffOutput`. -/
def iveMarker : String := "I\x27ve"

/-- The literal `"maintained"` tested by `cleanDiffOutput`. -/
def maintainedMarker : String := "maintained"

/-- The `'\ No newline at end of file'` marker filtered by
`cleanDiffOutput` (a single backslash followed by the message). -/
def noNewlineMarker : String := "\\ No newline at end of file"

/-- The per-line map of `cleanDiffOutput`: lines containing a fenced
code marker, `"I've"` or `"maintained"` are replaced by
`line.split('```')[0].split("I've")[0].trim()`. -/
def cleanDiffLine (line : String) : String :=
  if jsIncludes line fenceMarker || jsIncludes line iveMarker
      || jsIncludes line maintainedMarker then
    String.mk (trimL (splitHeadL iveMarker.toList (splitHeadL fenceMarker.toList line.toList)))
  else line

/-- `cleanDiffOutput` (Composer.js 686-701): for each hunk, drop
`'\ No newline at end of file'` lines and clean up code-block markers
and other formatting. -/
def cleanDiffOutput (diff : Diff) : Diff :=
  { hunks := diff.hunks.map fun hunk =>
      { hunk with lines :=
          (hunk.lines.filter fun line => ¬ jsIncludes line noNewlineMarker).map cleanDiffLine } }

/-! ## The source-view projection (Composer.js 735-767 and 775-808)

Both `createCompleteFileView` and `prepareSourceDiffView` walk the
original file's lines with a cursor: unchanged lines before each hunk
are copied verbatim, `'-'` hunk lines re-emit the *original* line at
the cursor prefixed with `'-'`, `'+'` hunk lines emit the hunk's own
text prefixed with `'+'`, and any other hunk line is treated as context
and copies the original line at the cursor.

JavaScript quirks modelled explicitly: an out-of-bounds
`lines[currentLine]` is `undefined`, which stringifies to
`"undefined"` when concatenated after `'-'`, and to `""` when the bare
element is rendered by `Array.prototype.join`. -/

/-- The `while (currentLine < target) result.push(lines[currentLine++])`
loop: copy (as rendered by `join`) the elements at indices
`[cur, target)`. -/
def copyRange (lines : List String) (cur target : Nat) : List String :=
  (List.range (target - cur)).map fun k => lines.getD (cur + k) ""

/-- The `hunk.lines.forEach` loop shared verbatim by
`createCompleteFileView` and `prepareSourceDiffView`: emit the rendered
lines and the advanced cursor. -/
def walkHunkLines (lines : List String) : List String → Nat → List String × Nat
  | [], cur => ([], cur)
  | l :: ls, cur =>
    if jsStartsWith l "-" then
      let r := walkHunkLines lines ls (cur + 1)
      (("-" ++ lines.getD cur "undefined") :: r.1, r.2)
    else if jsStartsWith l "+" then
      let r := walkHunkLines lines ls cur
      (("+" ++ jsSubstr1 l) :: r.1, r.2)
    else
      let r := walkHunkLines lines ls (cur + 1)
      (lines.getD cur "" :: r.1, r.2)

/-- One iteration of the `diff.hunks.forEach` loop: copy the unchanged
lines before the hunk, then process the hunk's lines. -/
def stepHunk (lines : List String) (st : List String × Nat) (h : Hunk) : List String × Nat :=
  let target := (h.oldStart - 1).toNat
  let pre := copyRange lines st.2 target
  let r := walkHunkLines lines h.lines (max st.2 target)
  (st.1 ++ pre ++ r.1, r.2)

/-- `createCompleteFileView` (Composer.js 735-767). -/
def createCompleteFileView (originalCode : String) (diff : Diff) : String :=
  let lines := jsSplitNL originalCode
  let st := diff.hunks.foldl (stepHunk lines) ([], 0)
  joinNL (st.1 ++ copyRange lines st.2 lines.length)

/-- `prepareSourceDiffView` (Composer.js 775-808). Its body is
line-for-line the same algorithm as `createCompleteFileView` (the only
textual difference in the source is a local `hunkStart` binding). -/
def prepareSourceDiffView (originalCode : String) (diff : Diff) : String :=
  let lines := jsSplitNL originalCode
  let st := diff.hunks.foldl (stepHunk lines) ([], 0)
  joinNL (st.1 ++ copyRange lines st.2 lines.length)

/-! ## Annotated lines (spec §3, `AnnotatedLine`)

The spec's data model for the merged source view: each output line is
tagged `unchanged`, `added` or `removed`. We re-express the projection
as producing annotated lines and prove the rendered form equals
`prepareSourceDiffView`'s output. -/

inductive AnnotatedLine where
  | unchanged (s : String)
  | removed (s : String)
  | added (s : String)
  deriving Repr, DecidableEq

/-- How an annotated line appears in the merged text buffer. -/
def renderAnnotated : AnnotatedLine → String
  | .unchanged s => s
  | .removed s => "-" ++ s
  | .added s => "+" ++ s

/-- Annotated version of `walkHunkLines`. -/
def annotateHunkLines (lines : List String) : List String → Nat → List AnnotatedLine × Nat
  | [], cur => ([], cur)
  | l :: ls, cur =>
    if jsStartsWith l "-" then
      let r := annotateHunkLines lines ls (cur + 1)
      (.removed (lines.getD cur "undefined") :: r.1, r.2)
    else if jsStartsWith l "+" then
      let r := annotateHunkLines lines ls cur
      (.added (jsSubstr1 l) :: r.1, r.2)
    else
      let r := annotateHunkLines lines ls (cur + 1)
      (.unchanged (lines.getD cur "") :: r.1, r.2)

/-- Annotated version of the whole projection. -/
def annotateHunks (lines : List String) : Nat → List Hunk → List AnnotatedLine
  | cur, [] => (copyRange lines cur lines.length).map .unchanged
  | cur, h :: rest =>
    let target := (h.oldStart - 1).toNat
    let pre := (copyRange lines cur target).map .unchanged
    let r := annotateHunkLines lines h.lines (max cur target)
    pre ++ r.1 ++ annotateHunks lines r.2 rest

/-- The original-file content recoverable from the annotated view:
removed lines are retained (sans marker), unchanged lines pass through,
added lines are not part of the original. -/
def oldSideLines (anns : List AnnotatedLine) : List String :=
  anns.filterMap fun a =>
    match a with
    | .unchanged s => some s
    | .removed s => some s
    | .added _ => none

/-- The added lines of the annotated view, in order, sans marker. -/
def addedSideLines (anns : List AnnotatedLine) : List String :=
  anns.filterMap fun a =>
    match a with
    | .added s => some s
    | _ => none

/-- The proposed-file content of the annotated view: unchanged and
added lines, with removed lines deleted. -/
def newSideLines (anns : List AnnotatedLine) : List String :=
  anns.filterMap fun a =>
    match a with
    | .unchanged s => some s
    | .added s => some s
    | .removed _ => none

/-- How many original lines a hunk's line list consumes: every line
not starting with `'+'` advances the cursor. -/
def hunkOldAdvance (ls : List String) : Nat :=
  (ls.filter fun l => ¬ jsStartsWith l "+").length

/-- Well-formedness of a hunk list against the original lines, starting
from cursor position `cur`: each hunk starts at or after the cursor and
its consumption stays within the file. -/
def wfHunksFrom (lines : List String) : Nat → List Hunk → Bool
  | _, [] => true
  | cur, h :: rest =>
    let target := (h.oldStart - 1).toNat
    decide ((cur : Int) ≤ h.oldStart - 1)
      && decide (target + hunkOldAdvance h.lines ≤ lines.length)
      && wfHunksFrom lines (target + hunkOldAdvance h.lines) rest

/-! ## Lemmas about the projection -/

theorem copyRange_eq_drop_take (lines : List String) :
    ∀ (n cur : Nat), cur + n ≤ lines.length →
      (List.range n).map (fun k => lines.getD (cur + k) "") = (lines.drop cur).take n := by
  intro n
  induction n with
  | zero => intro cur _; simp
  | succ m ih =>
    intro cur hle
    have hcur : cur < lines.length := by omega
    rw [List.range_succ_eq_map, List.map_cons, List.map_map,
      List.drop_eq_getElem_cons hcur]
    simp only [List.take_succ_cons]
    have h0 : lines.getD (cur + 0) "" = lines[cur] := by
      rw [Nat.add_zero]; exact List.getD_eq_getElem lines "" hcur
    rw [h0]
    have hmap : List.map ((fun k => lines.getD (cur + k) "") ∘ Nat.succ) (List.range m)
        = List.map (fun k => lines.getD (cur + 1 + k) "") (List.range m) := by
      apply List.map_congr_left
      intro k _
      simp only [Function.comp_apply]
      congr 1
      omega
    rw [hmap, ih (cur + 1) (by omega)]

theorem copyRange_spec (lines : List String) (cur target : Nat)
    (h : target ≤ lines.length) :
    copyRange lines cur target = (lines.drop cur).take (target - cur) := by
  unfold copyRange
  rcases le_or_lt cur target with hc | hc
  · exact copyRange_eq_drop_take lines (target - cur) cur (by omega)
  · have h0 : target - cur = 0 := by omega
    rw [h0]
    simp

theorem copyRange_to_end (lines : List String) (cur : Nat) :
    copyRange lines cur lines.length = lines.drop cur := by
  rw [copyRange_spec lines cur lines.length le_rfl]
  apply List.take_of_length_le
  rw [List.length_drop]

theorem jsStartsWith_dash_not_plus {l : String} (h1 : jsStartsWith l "-" = true) :
    jsStartsWith l "+" = false := by
  unfold jsStartsWith at h1 ⊢
  have hd : ("-" : String).toList = ['-'] := by decide
  have hpl : ("+" : String).toList = ['+'] := by decide
  rw [hd] at h1
  rw [hpl]
  cases hp : l.toList with
  | nil => rw [hp] at h1; exact absurd h1 (by decide)
  | cons c cs =>
    rw [hp] at h1
    simp [List.isPrefixOf] at h1 ⊢
    subst h1
    decide

theorem annotateHunkLines_del (lines : List String) (l : String) (ls : List String)
    (cur : Nat) (h1 : jsStartsWith l "-" = true) :
    annotateHunkLines lines (l :: ls) cur
      = (.removed (lines.getD cur "undefined") :: (annotateHunkLines lines ls (cur + 1)).1,
         (annotateHunkLines lines ls (cur + 1)).2) := by
  conv_lhs => unfold annotateHunkLines
  rw [if_pos h1]

theorem annotateHunkLines_add (lines : List String) (l : String) (ls : List String)
    (cur : Nat) (h1 : jsStartsWith l "-" = false) (h2 : jsStartsWith l "+" = true) :
    annotateHunkLines lines (l :: ls) cur
      = (.added (jsSubstr1 l) :: (annotateHunkLines lines ls cur).1,
         (annotateHunkLines lines ls cur).2) := by
  conv_lhs => unfold annotateHunkLines
  rw [if_neg (by simp [h1]), if_pos h2]

theorem annotateHunkLines_ctx (lines : List String) (l : String) (ls : List String)
    (cur : Nat) (h1 : jsStartsWith l "-" = false) (h2 : jsStartsWith l "+" = false) :
    annotateHunkLines lines (l :: ls) cur
      = (.unchanged (lines.getD cur "") :: (annotateHunkLines lines ls (cur + 1)).1,
         (annotateHunkLines lines ls (cur + 1)).2) := by
  conv_lhs => unfold annotateHunkLines
  rw [if_neg (by simp [h1]), if_neg (by simp [h2])]

theorem walkHunkLines_eq_annotate (lines : List String) :
    ∀ (ls : List String) (cur : Nat),
      walkHunkLines lines ls cur
        = ((annotateHunkLines lines ls cur).1.map renderAnnotated,
           (annotateHunkLines lines ls cur).2) := by
  intro ls
  induction ls with
  | nil => intro cur; rfl
  | cons l ls ih =>
    intro cur
    rcases h1 : jsStartsWith l "-" with _ | _
    · rcases h2 : jsStartsWith l "+" with _ | _
      · rw [annotateHunkLines_ctx lines l ls cur h1 h2]
        unfold walkHunkLines
        rw [if_neg (by simp [h1]), if_neg (by simp [h2]), ih (cur + 1)]
        simp [renderAnnotated]
      · rw [annotateHunkLines_add lines l ls cur h1 h2]
        unfold walkHunkLines
        rw [if_neg (by simp [h1]), if_pos h2, ih cur]
        simp [renderAnnotated]
    · rw [annotateHunkLines_del lines l ls cur h1]
      unfold walkHunkLines
      rw [if_pos h1, ih (cur + 1)]
      simp [renderAnnotated]

theorem hunkOldAdvance_cons_del {l : String} (ls : List String)
    (h1 : jsStartsWith l "-" = true) :
    hunkOldAdvance (l :: ls) = hunkOldAdvance ls + 1 := by
  unfold hunkOldAdvance
  rw [List.filter_cons_of_pos (by simp [jsStartsWith_dash_not_plus h1])]
  simp

theorem hunkOldAdvance_cons_add {l : String} (ls : List String)
    (h2 : jsStartsWith l "+" = true) :
    hunkOldAdvance (l :: ls) = hunkOldAdvance ls := by
  unfold hunkOldAdvance
  rw [List.filter_cons_of_neg (by simp [h2])]

theorem hunkOldAdvance_cons_ctx {l : String} (ls : List String)
    (h2 : jsStartsWith l "+" = false) :
    hunkOldAdvance (l :: ls) = hunkOldAdvance ls + 1 := by
  unfold hunkOldAdvance
  rw [List.filter_cons_of_pos (by simp [h2])]
  simp

theorem annotateHunkLines_advance (lines : List String) :
    ∀ (ls : List String) (cur : Nat),
      (annotateHunkLines lines ls cur).2 = cur + hunkOldAdvance ls := by
  intro ls
  induction ls with
  | nil => intro cur; simp [annotateHunkLines, hunkOldAdvance]
  | cons l ls ih =>
    intro cur
    rcases h1 : jsStartsWith l "-" with _ | _
    · rcases h2 : jsStartsWith l "+" with _ | _
      · rw [annotateHunkLines_ctx lines l ls cur h1 h2]
        rw [hunkOldAdvance_cons_ctx ls h2]
        simp only [ih (cur + 1)]
        omega
      · rw [annotateHunkLines_add lines l ls cur h1 h2]
        rw [hunkOldAdvance_cons_add ls h2]
        exact ih cur
    · rw [annotateHunkLines_del lines l ls cur h1]
      rw [hunkOldAdvance_cons_del ls h1]
      simp only [ih (cur + 1)]
      omega

theorem oldSide_annotateHunkLines (lines : List String) :
    ∀ (ls : List String) (cur : Nat), cur + hunkOldAdvance ls ≤ lines.length →
      oldSideLines (annotateHunkLines lines ls cur).1
        = (lines.drop cur).take (hunkOldAdvance ls) := by
  intro ls
  induction ls with
  | nil => intro cur _; simp [annotateHunkLines, oldSideLines, hunkOldAdvance]
  | cons l ls ih =>
    intro cur hle
    rcases h1 : jsStartsWith l "-" with _ | _
    · rcases h2 : jsStartsWith l "+" with _ | _
      · rw [hunkOldAdvance_cons_ctx ls h2] at hle ⊢
        have hcur : cur < lines.length := by omega
        rw [annotateHunkLines_ctx lines l ls cur h1 h2]
        unfold oldSideLines
        rw [List.filterMap_cons]
        simp only []
        rw [List.drop_eq_getElem_cons hcur, List.take_succ_cons]
        have := ih (cur + 1) (by omega)
        unfold oldSideLines at this
        rw [this, List.getD_eq_getElem lines "" hcur]
      · rw [hunkOldAdvance_cons_add ls h2] at hle ⊢
        rw [annotateHunkLines_add lines l ls cur h1 h2]
        unfold oldSideLines
        rw [List.filterMap_cons]
        simp only []
        have := ih cur hle
        unfold oldSideLines at this
        rw [this]
    · rw [hunkOldAdvance_cons_del ls h1] at hle ⊢
      have hcur : cur < lines.length := by omega
      rw [annotateHunkLines_del lines l ls cur h1]
      unfold oldSideLines
      rw [List.filterMap_cons]
      simp only []
      rw [List.drop_eq_getElem_cons hcur, List.take_succ_cons]
      have := ih (cur + 1) (by omega)
      unfold oldSideLines at this
      rw [this, List.getD_eq_getElem lines "undefined" hcur]

theorem addedSide_annotateHunkLines (lines : List String) :
    ∀ (ls : List String) (cur : Nat),
      addedSideLines (annotateHunkLines lines ls cur).1
        = (ls.filter fun l => jsStartsWith l "+").map jsSubstr1 := by
  intro ls
  induction ls with
  | nil => intro cur; rfl
  | cons l ls ih =>
    intro cur
    rcases h1 : jsStartsWith l "-" with _ | _
    · rcases h2 : jsStartsWith l "+" with _ | _
      · rw [annotateHunkLines_ctx lines l ls cur h1 h2]
        unfold addedSideLines
        rw [List.filterMap_cons, List.filter_cons_of_neg (by simp [h2])]
        exact ih (cur + 1)
      · rw [annotateHunkLines_add lines l ls cur h1 h2]
        unfold addedSideLines
        rw [List.filterMap_cons, List.filter_cons_of_pos (by simp [h2]), List.map_cons]
        simp only []
        have := ih cur
        unfold addedSideLines at this
        rw [this]
    · rw [annotateHunkLines_del lines l ls cur h1]
      unfold addedSideLines
      rw [List.filterMap_cons,
        List.filter_cons_of_neg (by simp [jsStartsWith_dash_not_plus h1])]
      exact ih (cur + 1)

theorem oldSide_map_unchanged (xs : List String) :
    oldSideLines (xs.map AnnotatedLine.unchanged) = xs := by
  unfold oldSideLines
  rw [List.filterMap_map]
  have : ((fun a => match a with
      | .unchanged s => some s
      | .removed s => some s
      | .added _ => none) ∘ AnnotatedLine.unchanged) = some := by
    funext s; rfl
  rw [this, List.filterMap_some]

theorem addedSide_map_unchanged (xs : List String) :
    addedSideLines (xs.map AnnotatedLine.unchanged) = [] := by
  unfold addedSideLines
  rw [List.filterMap_map]
  apply List.filterMap_eq_nil_iff.mpr
  intro a _
  rfl

theorem render_map_unchanged (xs : List String) :
    (xs.map AnnotatedLine.unchanged).map renderAnnotated = xs := by
  rw [List.map_map]
  have : (renderAnnotated ∘ AnnotatedLine.unchanged) = id := by
    funext s; rfl
  rw [this, List.map_id]

theorem annotateHunks_nil (lines : List String) (cur : Nat) :
    annotateHunks lines cur [] = (copyRange lines cur lines.length).map .unchanged := rfl

theorem annotateHunks_cons (lines : List String) (cur : Nat) (h : Hunk) (rest : List Hunk) :
    annotateHunks lines cur (h :: rest)
      = (copyRange lines cur (h.oldStart - 1).toNat).map AnnotatedLine.unchanged
          ++ (annotateHunkLines lines h.lines (max cur (h.oldStart - 1).toNat)).1
          ++ annotateHunks lines
              (annotateHunkLines lines h.lines (max cur (h.oldStart - 1).toNat)).2 rest := rfl

theorem wfHunksFrom_cons (lines : List String) (cur : Nat) (h : Hunk) (rest : List Hunk) :
    wfHunksFrom lines cur (h :: rest)
      = (decide ((cur : Int) ≤ h.oldStart - 1)
          && decide ((h.oldStart - 1).toNat + hunkOldAdvance h.lines ≤ lines.length)
          && wfHunksFrom lines ((h.oldStart - 1).toNat + hunkOldAdvance h.lines) rest) := rfl

theorem oldSide_annotateHunks (lines : List String) :
    ∀ (hunks : List Hunk) (cur : Nat), wfHunksFrom lines cur hunks = true →
      oldSideLines (annotateHunks lines cur hunks) = lines.drop cur := by
  intro hunks
  induction hunks with
  | nil =>
    intro cur _
    rw [annotateHunks_nil, copyRange_to_end, oldSide_map_unchanged]
  | cons h rest ih =>
    intro cur hwf
    rw [wfHunksFrom_cons] at hwf
    simp only [Bool.and_eq_true, decide_eq_true_eq] at hwf
    obtain ⟨⟨hc1, hc2⟩, hwfrest⟩ := hwf
    have hcur_le : cur ≤ (h.oldStart - 1).toNat := by omega
    have hmax : max cur (h.oldStart - 1).toNat = (h.oldStart - 1).toNat := by omega
    rw [annotateHunks_cons, hmax]
    unfold oldSideLines
    rw [List.filterMap_append, List.filterMap_append]
    have hpre : List.filterMap
        (fun a => match a with
          | .unchanged s => some s
          | .removed s => some s
          | .added _ => none)
        ((copyRange lines cur (h.oldStart - 1).toNat).map AnnotatedLine.unchanged)
        = copyRange lines cur (h.oldStart - 1).toNat := oldSide_map_unchanged _
    rw [hpre]
    have hmid := oldSide_annotateHunkLines lines h.lines (h.oldStart - 1).toNat hc2
    unfold oldSideLines at hmid
    rw [hmid]
    have hadv := annotateHunkLines_advance lines h.lines (h.oldStart - 1).toNat
    rw [hadv]
    have htail := ih ((h.oldStart - 1).toNat + hunkOldAdvance h.lines) hwfrest
    unfold oldSideLines at htail
    rw [htail]
    rw [copyRange_spec lines cur (h.oldStart - 1).toNat (by omega)]
    have e1 : lines.drop ((h.oldStart - 1).toNat + hunkOldAdvance h.lines)
        = ((lines.drop (h.oldStart - 1).toNat).drop (hunkOldAdvance h.lines)) := by
      rw [List.drop_drop]
    have e2 : ((lines.drop cur).drop ((h.oldStart - 1).toNat - cur)) = lines.drop (h.oldStart - 1).toNat := by
      rw [List.drop_drop]
      congr 1
      omega
    rw [e1, ← e2, List.append_assoc, List.take_append_drop, List.take_append_drop]

theorem addedSide_annotateHunks (lines : List String) :
    ∀ (hunks : List Hunk) (cur : Nat),
      addedSideLines (annotateHunks lines cur hunks)
        = hunks.flatMap fun h => (h.lines.filter fun l => jsStartsWith l "+").map jsSubstr1 := by
  intro hunks
  induction hunks with
  | nil =>
    intro cur
    rw [annotateHunks_nil, addedSide_map_unchanged, List.flatMap_nil]
  | cons h rest ih =>
    intro cur
    rw [annotateHunks_cons]
    unfold addedSideLines
    rw [List.filterMap_append, List.filterMap_append]
    have hpre := addedSide_map_unchanged (copyRange lines cur (h.oldStart - 1).toNat)
    unfold addedSideLines at hpre
    rw [hpre]
    have hmid := addedSide_annotateHunkLines lines h.lines (max cur (h.oldStart - 1).toNat)
    unfold addedSideLines at hmid
    rw [hmid]
    have htail := ih (annotateHunkLines lines h.lines (max cur (h.oldStart - 1).toNat)).2
    unfold addedSideLines at htail
    rw [htail, List.flatMap_cons]
    simp

theorem foldl_stepHunk_render (lines : List String) :
    ∀ (hunks : List Hunk) (acc : List String) (cur : Nat),
      (hunks.foldl (stepHunk lines) (acc, cur)).1
          ++ copyRange lines (hunks.foldl (stepHunk lines) (acc, cur)).2 lines.length
        = acc ++ (annotateHunks lines cur hunks).map renderAnnotated := by
  intro hunks
  induction hunks with
  | nil =>
    intro acc cur
    show acc ++ copyRange lines cur lines.length
        = acc ++ (annotateHunks lines cur []).map renderAnnotated
    rw [annotateHunks_nil, render_map_unchanged]
  | cons h rest ih =>
    intro acc cur
    have hstep : stepHunk lines (acc, cur) h
        = (acc ++ copyRange lines cur (h.oldStart - 1).toNat
             ++ (walkHunkLines lines h.lines (max cur (h.oldStart - 1).toNat)).1,
           (walkHunkLines lines h.lines (max cur (h.oldStart - 1).toNat)).2) := rfl
    rw [List.foldl_cons, hstep, ih, annotateHunks_cons]
    rw [walkHunkLines_eq_annotate]
    simp only [List.map_append, render_map_unchanged, List.append_assoc]

/-! ## Claims C1 and C9 -/

/-- C1 (Source-view projection): for every original text and every
well-formed diff over it, `prepareSourceDiffView` returns a single text
buffer that renders an annotated line sequence in which every removed
line appears prefixed with `'-'` but is retained, every added line
appears prefixed with `'+'` and is inserted at its hunk position, and
every unchanged line passes through verbatim: erasing the added lines
and the removal markers recovers exactly the original lines in their
original order, and the added lines are exactly the hunks' `'+'` lines
in hunk order. -/
theorem prepareSourceDiffView_projection (originalCode : String) (diff : Diff)
    (hwf : wfHunksFrom (jsSplitNL originalCode) 0 diff.hunks = true) :
    prepareSourceDiffView originalCode diff
        = joinNL ((annotateHunks (jsSplitNL originalCode) 0 diff.hunks).map renderAnnotated)
      ∧ oldSideLines (annotateHunks (jsSplitNL originalCode) 0 diff.hunks)
          = jsSplitNL originalCode
      ∧ addedSideLines (annotateHunks (jsSplitNL originalCode) 0 diff.hunks)
          = diff.hunks.flatMap fun h =>
              (h.lines.filter fun l => jsStartsWith l "+").map jsSubstr1 := by
  refine ⟨?_, ?_, ?_⟩
  · show joinNL ((diff.hunks.foldl (stepHunk (jsSplitNL originalCode)) ([], 0)).1
        ++ copyRange (jsSplitNL originalCode)
            (diff.hunks.foldl (stepHunk (jsSplitNL originalCode)) ([], 0)).2
            (jsSplitNL originalCode).length)
        = joinNL ((annotateHunks (jsSplitNL originalCode) 0 diff.hunks).map renderAnnotated)
    rw [foldl_stepHunk_render (jsSplitNL originalCode) diff.hunks [] 0, List.nil_append]
  · have h0 := oldSide_annotateHunks (jsSplitNL originalCode) diff.hunks 0 hwf
    rw [List.drop_zero] at h0
    exact h0
  · exact addedSide_annotateHunks (jsSplitNL originalCode) diff.hunks 0

/-- Witness for C1: the projection theorem applied to a concrete
original text and diff. -/
theorem prepareSourceDiffView_projection_witness :
    wfHunksFrom (jsSplitNL "a\nb\nc\nd\n") 0 [⟨2, 2, 2, 2, [" b", "-c", "+X"]⟩] = true
      ∧ (prepareSourceDiffView "a\nb\nc\nd\n" ⟨[⟨2, 2, 2, 2, [" b", "-c", "+X"]⟩]⟩
            = joinNL ((annotateHunks (jsSplitNL "a\nb\nc\nd\n") 0
                [⟨2, 2, 2, 2, [" b", "-c", "+X"]⟩]).map renderAnnotated)
          ∧ oldSideLines (annotateHunks (jsSplitNL "a\nb\nc\nd\n") 0
                [⟨2, 2, 2, 2, [" b", "-c", "+X"]⟩])
              = jsSplitNL "a\nb\nc\nd\n"
          ∧ addedSideLines (annotateHunks (jsSplitNL "a\nb\nc\nd\n") 0
                [⟨2, 2, 2, 2, [" b", "-c", "+X"]⟩])
              = ([⟨2, 2, 2, 2, [" b", "-c", "+X"]⟩] : List Hunk).flatMap fun h =>
                  (h.lines.filter fun l => jsStartsWith l "+").map jsSubstr1) :=
  ⟨by decide,
   prepareSourceDiffView_projection "a\nb\nc\nd\n" ⟨[⟨2, 2, 2, 2, [" b", "-c", "+X"]⟩]⟩
     (by decide)⟩

/-- C9: `createCompleteFileView` and `prepareSourceDiffView` are
extensionally equal: for every original code string and every diff
object they return the same output string. -/
theorem createCompleteFileView_eq_prepareSourceDiffView :
    ∀ (originalCode : String) (diff : Diff),
      createCompleteFileView originalCode diff = prepareSourceDiffView originalCode diff :=
  fun _ _ => rfl

/-! ## The diff generator

`generateDiff` (Composer.js 709-727) delegates the actual diffing to
the jsdiff library (`createTwoFilesPatch` with two lines of context,
then `parsePatch`), which is loaded from a CDN and is not part of the
repository sources.  The library composition is therefore modelled from
the specification (spec §2 "Diff Generator", §4.1): a structural
line-level diff between the two texts, expressed as an edit script of
kept / deleted / inserted lines, grouped into ordered hunks with a
context window of two lines around each change (change blocks whose
common gap is at most twice the context window are merged into one
hunk, as in unified-diff output). -/

/-- One line-level edit operation of the diff script. -/
inductive DOp where
  | keep (s : String)
  | del (s : String)
  | ins (s : String)
  deriving Repr, DecidableEq

/-- The original-file lines of an edit script (kept and deleted). -/
def opsOldLines : List DOp → List String :=
  List.filterMap fun op =>
    match op with
    | .keep s => some s
    | .del s => some s
    | .ins _ => none

/-- The proposed-file lines of an edit script (kept and inserted). -/
def opsNewLines : List DOp → List String :=
  List.filterMap fun op =>
    match op with
    | .keep s => some s
    | .ins s => some s
    | .del _ => none

/-- Number of non-`keep` operations of a script. -/
def editCost (script : List DOp) : Nat :=
  (script.filter fun op =>
    match op with
    | .keep _ => false
    | _ => true).length

/-- Modelled from the spec: the line-level diff algorithm of the jsdiff
library (`diffLines`), absent from the repository sources.  A
longest-common-subsequence edit script between the two line lists,
computed with explicit fuel so that the definition is structurally
recursive and computable; the wrapper always supplies sufficient fuel,
and the script is sound (reproduces both sides) for every fuel. -/
def lcsDiff : Nat → List String → List String → List DOp
  | 0, xs, ys => xs.map .del ++ ys.map .ins
  | _ + 1, [], ys => ys.map .ins
  | _ + 1, x :: xs, [] => (x :: xs).map .del
  | fuel + 1, x :: xs, y :: ys =>
    if x = y then .keep x :: lcsDiff fuel xs ys
    else
      let d := .del x :: lcsDiff fuel xs (y :: ys)
      let i := .ins y :: lcsDiff fuel (x :: xs) ys
      if editCost d ≤ editCost i then d else i

/-- A maximal run of the edit script: either a run of common (kept)
lines or a run of changes. -/
inductive Seg where
  | ctx (c : List String)
  | chg (ops : List DOp)
  deriving Repr, DecidableEq

/-- Group an edit script into alternating common/change runs. -/
def toSegs : List DOp → List Seg
  | [] => []
  | .keep s :: rest =>
    match toSegs rest with
    | .ctx c :: segs => .ctx (s :: c) :: segs
    | segs => .ctx [s] :: segs
  | .del s :: rest =>
    match toSegs rest with
    | .chg ops :: segs => .chg (.del s :: ops) :: segs
    | segs => .chg [.del s] :: segs
  | .ins s :: rest =>
    match toSegs rest with
    | .chg ops :: segs => .chg (.ins s :: ops) :: segs
    | segs => .chg [.ins s] :: segs

/-- The original-file lines of a segment list. -/
def segsOldLines : List Seg → List String
  | [] => []
  | .ctx c :: rest => c ++ segsOldLines rest
  | .chg ops :: rest => opsOldLines ops ++ segsOldLines rest

/-- The proposed-file lines of a segment list. -/
def segsNewLines : List Seg → List String
  | [] => []
  | .ctx c :: rest => c ++ segsNewLines rest
  | .chg ops :: rest => opsNewLines ops ++ segsNewLines rest

/-- Render one edit operation as a marker-prefixed hunk line. -/
def renderOp : DOp → String
  | .keep s => " " ++ s
  | .del s => "-" ++ s
  | .ins s => "+" ++ s

/-- Render a script run as hunk lines. -/
def renderOps (ops : List DOp) : List String := ops.map renderOp

/-- Render a run of common lines as context hunk lines. -/
def renderCtx (c : List String) : List String := c.map fun s => " " ++ s

/-- The last (at most) two elements: the leading context of a hunk
opened right after this common run. -/
def takeLast2 (l : List String) : List String := l.drop (l.length - 2)

/-- Internal state of the hunk builder: scanning between hunks, or
accumulating an open hunk. -/
inductive BuildMode where
  | scan (oldPos newPos : Nat) (prev : List String)
  | inHunk (hl : List String) (oS nS oldL newL oldPos newPos : Nat)
  deriving Repr, DecidableEq

/-- Modelled from the spec: the hunk construction of jsdiff's
`structuredPatch` (context = 2), absent from the repository sources.
Change runs are wrapped into hunks carrying up to two common lines of
leading and trailing context; a common run of at most `2 * context`
lines between two change runs is absorbed into the open hunk. -/
def buildHunks : BuildMode → List Seg → List Hunk
  | .scan _ _ _, [] => []
  | .scan o n _, .ctx c :: rest =>
    buildHunks (.scan (o + c.length) (n + c.length) c) rest
  | .scan o n prev, .chg ops :: rest =>
    let lead := takeLast2 prev
    buildHunks (.inHunk (renderCtx lead ++ renderOps ops)
      (o - lead.length + 1) (n - lead.length + 1)
      (lead.length + (opsOldLines ops).length) (lead.length + (opsNewLines ops).length)
      (o + (opsOldLines ops).length) (n + (opsNewLines ops).length)) rest
  | .inHunk hl oS nS oldL newL _ _, [] => [⟨oS, oldL, nS, newL, hl⟩]
  | .inHunk hl oS nS oldL newL o n, .ctx c :: rest =>
    if c.length ≤ 4 ∧ rest ≠ [] then
      buildHunks (.inHunk (hl ++ renderCtx c) oS nS (oldL + c.length) (newL + c.length)
        (o + c.length) (n + c.length)) rest
    else
      ⟨oS, oldL + min 2 c.length, nS, newL + min 2 c.length, hl ++ renderCtx (c.take 2)⟩
        :: buildHunks (.scan (o + c.length) (n + c.length) c) rest
  | .inHunk hl oS nS oldL newL o n, .chg ops :: rest =>
    buildHunks (.inHunk (hl ++ renderOps ops) oS nS
      (oldL + (opsOldLines ops).length) (newL + (opsNewLines ops).length)
      (o + (opsOldLines ops).length) (n + (opsNewLines ops).length)) rest

/-- The line list a `'\n'`-terminated text is diffed over (jsdiff
tokenizes a trailing-newline text into its lines; the final empty
component of `split('\n')` is not a line). -/
def diffLinesOf (text : String) : List String := (jsSplitNL text).dropLast

/-- Modelled from the spec: the composition
`parsePatch(createTwoFilesPatch('current', 'proposed', c, p, '', '', { context: 2 }))[0]`
of the jsdiff library, absent from the repository sources. -/
def structuredDiff (currentCode proposedCode : String) : Diff :=
  let xs := diffLinesOf currentCode
  let ys := diffLinesOf proposedCode
  ⟨buildHunks (.scan 0 0 []) (toSegs (lcsDiff (xs.length + ys.length) xs ys))⟩

/-- `generateDiff` (Composer.js 709-727): normalize both texts to end
with a newline, diff them, and clean the parsed diff. -/
def generateDiff (currentCode proposedCode : String) : Diff :=
  let c := if jsEndsWith currentCode "\n" then currentCode else currentCode ++ "\n"
  let p := if jsEndsWith proposedCode "\n" then proposedCode else proposedCode ++ "\n"
  cleanDiffOutput (structuredDiff c p)

/-! ## Claim C3: diffing a text against itself -/

theorem lcsDiff_self : ∀ (xs : List String) (fuel : Nat), xs.length ≤ fuel →
    lcsDiff fuel xs xs = xs.map .keep := by
  intro xs
  induction xs with
  | nil =>
    intro fuel _
    match fuel with
    | 0 => rfl
    | f + 1 => rfl
  | cons x xs ih =>
    intro fuel hle
    match fuel with
    | 0 => simp at hle
    | f + 1 =>
      show lcsDiff (f + 1) (x :: xs) (x :: xs) = (x :: xs).map .keep
      unfold lcsDiff
      rw [if_pos rfl, ih f (by simp at hle; omega), List.map_cons]

theorem toSegs_map_keep (xs : List String) :
    toSegs (xs.map DOp.keep) = if xs.isEmpty then [] else [.ctx xs] := by
  induction xs with
  | nil => rfl
  | cons x xs ih =>
    rw [List.map_cons]
    show (match toSegs (xs.map DOp.keep) with
      | .ctx c :: segs => Seg.ctx (x :: c) :: segs
      | segs => Seg.ctx [x] :: segs) = _
    rw [ih]
    cases xs with
    | nil => rfl
    | cons y ys => rfl

/-- C3: for every text `t`, `generateDiff t t` returns a diff whose
list of hunks is empty. -/
theorem generateDiff_self_no_hunks (t : String) : (generateDiff t t).hunks = [] := by
  have hbase : ∀ (s : String), (structuredDiff s s).hunks = [] := by
    intro s
    show (Diff.mk (buildHunks (.scan 0 0 [])
        (toSegs (lcsDiff ((diffLinesOf s).length + (diffLinesOf s).length)
          (diffLinesOf s) (diffLinesOf s))))).hunks = []
    rw [lcsDiff_self (diffLinesOf s) ((diffLinesOf s).length + (diffLinesOf s).length)
      (by omega)]
    rw [toSegs_map_keep]
    cases hc : (diffLinesOf s).isEmpty
    · rw [if_neg (by simp [hc])]
      rfl
    · rw [if_pos (by simp [hc])]
      rfl
  unfold generateDiff
  cases hnl : jsEndsWith t "\n"
  · show (cleanDiffOutput (structuredDiff (t ++ "\n") (t ++ "\n"))).hunks = []
    unfold cleanDiffOutput
    rw [hbase (t ++ "\n")]
    rfl
  · show (cleanDiffOutput (structuredDiff t t)).hunks = []
    unfold cleanDiffOutput
    rw [hbase t]
    rfl

/-! ## Claim C6: hunk-line cleanup removes fenced-code markers -/

theorem isPrefixOf_iff_exists : ∀ (p l : List Char), p.isPrefixOf l = true ↔ ∃ t, l = p ++ t := by
  intro p
  induction p with
  | nil =>
    intro l
    constructor
    · intro _; exact ⟨l, rfl⟩
    · intro _
      cases l with
      | nil => rfl
      | cons d ds => rfl
  | cons c cs ih =>
    intro l
    cases l with
    | nil =>
      constructor
      · intro h; exact absurd h (by simp [List.isPrefixOf])
      · rintro ⟨t, ht⟩; exact absurd ht (by simp)
    | cons d ds =>
      constructor
      · intro h
        rw [show ((c :: cs).isPrefixOf (d :: ds)) = (c == d && cs.isPrefixOf ds) from rfl,
          Bool.and_eq_true, beq_iff_eq] at h
        obtain ⟨hcd, htl⟩ := h
        obtain ⟨t, ht⟩ := (ih ds).mp htl
        refine ⟨t, ?_⟩
        rw [List.cons_append, ← hcd, ht]
      · rintro ⟨t, ht⟩
        rw [List.cons_append] at ht
        injection ht with h1 h2
        rw [show ((c :: cs).isPrefixOf (d :: ds)) = (c == d && cs.isPrefixOf ds) from rfl,
          Bool.and_eq_true, beq_iff_eq]
        exact ⟨h1.symm, (ih ds).mpr ⟨t, h2⟩⟩

theorem jsIncludesL_iff_exists :
    ∀ (pat l : List Char), jsIncludesL pat l = true ↔ ∃ a b, l = a ++ pat ++ b := by
  intro pat l
  induction l with
  | nil =>
    constructor
    · intro h
      have hp : pat = [] := by
        simpa [jsIncludesL, List.isEmpty_iff] using h
      exact ⟨[], [], by simp [hp]⟩
    · rintro ⟨a, b, hab⟩
      have := hab.symm
      rw [List.append_assoc] at this
      rw [List.append_eq_nil] at this
      rw [List.append_eq_nil] at this
      simp [jsIncludesL, List.isEmpty_iff, this.2.1]
  | cons c rest ih =>
    constructor
    · intro h
      rw [show jsIncludesL pat (c :: rest)
          = (pat.isPrefixOf (c :: rest) || jsIncludesL pat rest) from rfl,
        Bool.or_eq_true] at h
      rcases h with h | h
      · obtain ⟨t, ht⟩ := (isPrefixOf_iff_exists pat (c :: rest)).mp h
        exact ⟨[], t, by simpa using ht⟩
      · obtain ⟨a, b, hab⟩ := ih.mp h
        exact ⟨c :: a, b, by simp [hab]⟩
    · rintro ⟨a, b, hab⟩
      rw [show jsIncludesL pat (c :: rest)
          = (pat.isPrefixOf (c :: rest) || jsIncludesL pat rest) from rfl,
        Bool.or_eq_true]
      cases a with
      | nil =>
        left
        rw [List.nil_append] at hab
        exact (isPrefixOf_iff_exists pat (c :: rest)).mpr ⟨b, hab⟩
      | cons a0 as =>
        right
        rw [List.cons_append, List.cons_append] at hab
        injection hab with h1 h2
        exact ih.mpr ⟨as, b, h2⟩

theorem splitHeadL_is_lead (pat : List Char) :
    ∀ (l : List Char), ∃ t, l = splitHeadL pat l ++ t := by
  intro l
  induction l with
  | nil => exact ⟨[], rfl⟩
  | cons c rest ih =>
    unfold splitHeadL
    by_cases h : pat.isPrefixOf (c :: rest) = true
    · rw [if_pos h]
      exact ⟨c :: rest, rfl⟩
    · rw [if_neg h]
      obtain ⟨t, ht⟩ := ih
      refine ⟨t, ?_⟩
      rw [List.cons_append, ← ht]

theorem jsIncludesL_splitHeadL (pat : List Char) (hpat : pat ≠ []) :
    ∀ (l : List Char), jsIncludesL pat (splitHeadL pat l) = false := by
  intro l
  induction l with
  | nil =>
    show jsIncludesL pat [] = false
    simpa [jsIncludesL, List.isEmpty_iff] using hpat
  | cons c rest ih =>
    unfold splitHeadL
    by_cases h : pat.isPrefixOf (c :: rest) = true
    · rw [if_pos h]
      simpa [jsIncludesL, List.isEmpty_iff] using hpat
    · rw [if_neg h]
      rw [show jsIncludesL pat (c :: splitHeadL pat rest)
          = (pat.isPrefixOf (c :: splitHeadL pat rest) || jsIncludesL pat (splitHeadL pat rest))
          from rfl]
      rw [ih, Bool.or_false]
      by_contra hb
      rw [Bool.not_eq_false] at hb
      obtain ⟨t, ht⟩ := (isPrefixOf_iff_exists pat (c :: splitHeadL pat rest)).mp hb
      obtain ⟨u, hu⟩ := splitHeadL_is_lead pat rest
      have hfull : c :: rest = pat ++ (t ++ u) := by
        rw [hu]
        have : c :: (splitHeadL pat rest ++ u) = (c :: splitHeadL pat rest) ++ u := rfl
        rw [this, ht, List.append_assoc]
      exact h ((isPrefixOf_iff_exists pat (c :: rest)).mpr ⟨t ++ u, hfull⟩)

theorem dropWhile_is_tail (p : Char → Bool) :
    ∀ (l : List Char), ∃ a, l = a ++ l.dropWhile p := by
  intro l
  induction l with
  | nil => exact ⟨[], rfl⟩
  | cons c rest ih =>
    by_cases h : p c = true
    · rw [List.dropWhile_cons_of_pos h]
      obtain ⟨a, ha⟩ := ih
      refine ⟨c :: a, ?_⟩
      rw [List.cons_append, ← ha]
    · rw [List.dropWhile_cons_of_neg (by simp [h])]
      exact ⟨[], rfl⟩

theorem trimL_is_infix (l : List Char) : ∃ a b, l = a ++ trimL l ++ b := by
  obtain ⟨a, ha⟩ := dropWhile_is_tail Char.isWhitespace l
  obtain ⟨a2, ha2⟩ := dropWhile_is_tail Char.isWhitespace (l.dropWhile Char.isWhitespace).reverse
  refine ⟨a, a2.reverse, ?_⟩
  have hD : l.dropWhile Char.isWhitespace = trimL l ++ a2.reverse := by
    have hrev := congrArg List.reverse ha2
    rw [List.reverse_reverse, List.reverse_append] at hrev
    unfold trimL
    exact hrev
  rw [List.append_assoc, ← hD, ← ha]

theorem jsIncludesL_of_infix (pat m : List Char) (h : jsIncludesL pat m = true)
    (a b : List Char) : jsIncludesL pat (a ++ m ++ b) = true := by
  obtain ⟨x, y, hxy⟩ := (jsIncludesL_iff_exists pat m).mp h
  apply (jsIncludesL_iff_exists pat (a ++ m ++ b)).mpr
  refine ⟨a ++ x, y ++ b, ?_⟩
  rw [hxy]
  simp [List.append_assoc]

theorem cleanDiffLine_no_fence (line : String) :
    jsIncludes (cleanDiffLine line) fenceMarker = false := by
  unfold cleanDiffLine
  by_cases hcond : (jsIncludes line fenceMarker || jsIncludes line iveMarker
      || jsIncludes line maintainedMarker) = true
  · rw [if_pos hcond]
    by_contra hbne
    rw [Bool.not_eq_false] at hbne
    have hb : jsIncludesL fenceMarker.toList
        (trimL (splitHeadL iveMarker.toList (splitHeadL fenceMarker.toList line.toList)))
        = true := hbne
    obtain ⟨a, b, hab⟩ :=
      trimL_is_infix (splitHeadL iveMarker.toList (splitHeadL fenceMarker.toList line.toList))
    obtain ⟨t, ht⟩ := splitHeadL_is_lead iveMarker.toList (splitHeadL fenceMarker.toList line.toList)
    have h1 : jsIncludesL fenceMarker.toList
        (splitHeadL iveMarker.toList (splitHeadL fenceMarker.toList line.toList)) = true := by
      have hinf := jsIncludesL_of_infix fenceMarker.toList _ hb a b
      rw [← hab] at hinf
      exact hinf
    have h2 : jsIncludesL fenceMarker.toList (splitHeadL fenceMarker.toList line.toList) = true := by
      have hinf := jsIncludesL_of_infix fenceMarker.toList _ h1 [] t
      rw [List.nil_append, ← ht] at hinf
      exact hinf
    have h3 := jsIncludesL_splitHeadL fenceMarker.toList (by decide) line.toList
    rw [h3] at h2
    exact absurd h2 (by decide)
  · rw [if_neg hcond]
    rw [Bool.or_eq_true, Bool.or_eq_true] at hcond
    push_neg at hcond
    simp only [Bool.not_eq_true] at hcond
    exact hcond.1.1

/-- C6: diff cleanup of AI artifacts: no line of a cleaned diff's
finalized hunks contains a fenced-code marker. -/
theorem cleanDiffOutput_no_fence (diff : Diff) (h : Hunk) (l : String)
    (hh : h ∈ (cleanDiffOutput diff).hunks) (hl : l ∈ h.lines) :
    jsIncludes l fenceMarker = false := by
  unfold cleanDiffOutput at hh
  simp only [List.mem_map] at hh
  obtain ⟨h0, _, hEq⟩ := hh
  rw [← hEq] at hl
  simp only [List.mem_map] at hl
  obtain ⟨l0, _, hlEq⟩ := hl
  rw [← hlEq]
  exact cleanDiffLine_no_fence l0

/-- Witness for C6: a diff whose hunk lines contain stray fenced-code
markers, cleaned at a concrete input. -/
theorem cleanDiffOutput_no_fence_witness :
    ((⟨1, 1, 1, 1, ["-old", "+new"]⟩ : Hunk)
          ∈ (cleanDiffOutput ⟨[⟨1, 1, 1, 1, ["-old```x", "+new"]⟩]⟩).hunks
        ∧ "-old" ∈ (⟨1, 1, 1, 1, ["-old", "+new"]⟩ : Hunk).lines)
      ∧ jsIncludes "-old" fenceMarker = false :=
  ⟨⟨by decide, by decide⟩,
   cleanDiffOutput_no_fence ⟨[⟨1, 1, 1, 1, ["-old```x", "+new"]⟩]⟩
     ⟨1, 1, 1, 1, ["-old", "+new"]⟩ "-old" (by decide) (by decide)⟩

/-! ## The review state machine (Composer.js 1198-1419)

One diff preview owns three buttons (`View in Source`, `Apply` /
`Revert`, `Reject`) and a set of captured closure variables
(`isInSourceView`, `originalCode`, `diffView`, `isReverted`,
`originalCodeState`).  Entering the source view replaces the accept and
reject handlers (lines 1231 and 1284); leaving it installs the
"restored" handlers of lines 1331 and 1337 (which, unlike the initial
handlers, neither track `isReverted` nor disable any button).  Clicking
a disabled button is a no-op. -/

/-- Which accept/reject onclick handlers are currently installed. -/
inductive HandlerMode where
  | plain
  | sourceView
  | restored
  deriving Repr, DecidableEq

structure PreviewState where
  editorText : String
  proposedCode : String
  diff : Diff
  isInSourceView : Bool
  originalCode : Option String
  diffView : Option String
  isReverted : Bool
  originalCodeState : Option String
  viewDisabled : Bool
  acceptDisabled : Bool
  rejectDisabled : Bool
  handlers : HandlerMode
  rejectedMark : Bool
  deriving Repr, DecidableEq

/-- The preview created for a freshly generated diff (Composer.js
1198-1423): all buttons enabled, plain handlers, nothing captured. -/
def initPreview (editorText proposedCode : String) (diff : Diff) : PreviewState :=
  { editorText := editorText
    proposedCode := proposedCode
    diff := diff
    isInSourceView := false
    originalCode := none
    diffView := none
    isReverted := false
    originalCodeState := none
    viewDisabled := false
    acceptDisabled := false
    rejectDisabled := false
    handlers := .plain
    rejectedMark := false }

/-- The source-view apply transformation (Composer.js 1236-1240):
drop `'-'` lines of the diff view, strip the `'+'` markers. -/
def applySourceView (diffView : String) : String :=
  joinNL (((jsSplitNL diffView).filter fun line => ¬ jsStartsWith line "-").map
    fun line => if jsStartsWith line "+" then jsSubstr1 line else line)

/-- Clicking the Apply/Revert button. -/
def clickAccept (s : PreviewState) : PreviewState :=
  if s.acceptDisabled then s
  else
    match s.handlers with
    | .plain =>
      if ¬ s.isReverted then
        { s with originalCodeState := some s.editorText
                 editorText := s.proposedCode
                 isReverted := true
                 viewDisabled := true
                 rejectDisabled := true }
      else
        { s with editorText := s.originalCodeState.getD ""
                 isReverted := false
                 viewDisabled := false
                 rejectDisabled := false }
    | .sourceView =>
      if ¬ s.isReverted then
        { s with originalCodeState := some s.editorText
                 editorText := applySourceView (s.diffView.getD "")
                 isReverted := true
                 viewDisabled := true
                 rejectDisabled := true }
      else
        { s with editorText := s.originalCodeState.getD ""
                 isReverted := false
                 viewDisabled := false
                 rejectDisabled := false }
    | .restored =>
      { s with editorText := s.proposedCode }

/-- Clicking the Reject button. -/
def clickReject (s : PreviewState) : PreviewState :=
  if s.rejectDisabled then s
  else
    match s.handlers with
    | .plain =>
      { s with viewDisabled := true
               acceptDisabled := true
               rejectDisabled := true
               rejectedMark := true }
    | .sourceView =>
      { s with editorText := s.originalCode.getD ""
               viewDisabled := true
               acceptDisabled := true
               rejectDisabled := true
               rejectedMark := true }
    | .restored => s

/-- Clicking the View in Source / View in Editor toggle. -/
def clickViewToggle (s : PreviewState) : PreviewState :=
  if s.viewDisabled then s
  else if ¬ s.isInSourceView then
    let dv := prepareSourceDiffView s.editorText s.diff
    { s with isInSourceView := true
             originalCode := some s.editorText
             diffView := some dv
             editorText := dv
             handlers := .sourceView }
  else
    { s with isInSourceView := false
             editorText := s.originalCode.getD ""
             handlers := .restored }

/-! ## Claims C2 and C4 -/

/-- C2 (Apply/revert round-trip): in the plain preview and in the
source-view mode, clicking Apply stores the main editor's current text
and replaces it (with the proposed code, resp. the applied source
view), and clicking Revert afterwards restores the stored text: the
main editor's text before the Apply click, exactly. -/
theorem apply_then_revert_restores_editor (s : PreviewState)
    (hmode : s.handlers = .plain ∨ s.handlers = .sourceView)
    (hdis : s.acceptDisabled = false) (hrev : s.isReverted = false) :
    (clickAccept (clickAccept s)).editorText = s.editorText := by
  rcases hmode with hm | hm <;>
    simp [clickAccept, hm, hdis, hrev]

/-- Witness for C2: a concrete apply-then-revert run in the source-view
mode. -/
theorem apply_then_revert_restores_editor_witness :
    ((initPreview "a\nb\n" "a\nc\n" ⟨[⟨2, 1, 2, 1, ["-b", "+c"]⟩]⟩).handlers = .plain
        ∨ (initPreview "a\nb\n" "a\nc\n" ⟨[⟨2, 1, 2, 1, ["-b", "+c"]⟩]⟩).handlers = .sourceView)
      ∧ (clickAccept (clickAccept (initPreview "a\nb\n" "a\nc\n"
            ⟨[⟨2, 1, 2, 1, ["-b", "+c"]⟩]⟩))).editorText
          = (initPreview "a\nb\n" "a\nc\n" ⟨[⟨2, 1, 2, 1, ["-b", "+c"]⟩]⟩).editorText :=
  ⟨Or.inl rfl,
   apply_then_revert_restores_editor (initPreview "a\nb\n" "a\nc\n"
     ⟨[⟨2, 1, 2, 1, ["-b", "+c"]⟩]⟩) (Or.inl rfl) rfl rfl⟩

/-- C4 is violated by the code: after toggling into and back out of the
source view, the restored reject handler (Composer.js 1337-1339) only
posts a chat message; it disables nothing, so Rejected is not terminal
in that view mode.  Evaluating the embedded state machine on the
failing input: starting from a fresh preview, View in Source, View in
Editor, then Reject leaves every button enabled and sets no rejected
status. -/
theorem reject_after_source_view_roundtrip_not_terminal :
    (clickReject (clickViewToggle (clickViewToggle
        (initPreview "a\n" "b\n" ⟨[⟨1, 1, 1, 1, ["-a", "+b"]⟩]⟩)))).viewDisabled = false
      ∧ (clickReject (clickViewToggle (clickViewToggle
          (initPreview "a\n" "b\n" ⟨[⟨1, 1, 1, 1, ["-a", "+b"]⟩]⟩)))).acceptDisabled = false
      ∧ (clickReject (clickViewToggle (clickViewToggle
          (initPreview "a\n" "b\n" ⟨[⟨1, 1, 1, 1, ["-a", "+b"]⟩]⟩)))).rejectDisabled = false
      ∧ (clickReject (clickViewToggle (clickViewToggle
          (initPreview "a\n" "b\n" ⟨[⟨1, 1, 1, 1, ["-a", "+b"]⟩]⟩)))).rejectedMark = false := by
  decide

/-! ## Active-preview management (Composer.js 1154-1159, 1584-1616)

`sendMessage` creates a new diff preview, first calling
`disablePreviousPreview` on the preview `currentActivePreview` points
to (disabling its buttons, adding the `inactive` class and the
`(Previous Version)` label) and then appending the new preview to the
chat messages container; nothing is ever removed from the container. -/

structure PreviewRec where
  buttonsDisabled : Bool
  inactiveClass : Bool
  inactiveLabel : Bool
  deriving Repr, DecidableEq

/-- A freshly created preview: enabled, not dimmed. -/
def freshPreviewRec : PreviewRec :=
  { buttonsDisabled := false, inactiveClass := false, inactiveLabel := false }

/-- What `disablePreviousPreview` does to the active preview's DOM
subtree: buttons disabled, `inactive` class, `(Previous Version)`
label. -/
def disabledPreviewRec : PreviewRec :=
  { buttonsDisabled := true, inactiveClass := true, inactiveLabel := true }

/-- The chat history of previews plus the `currentActivePreview`
pointer (an index into the history). -/
structure ComposerChatState where
  previews : List PreviewRec
  currentActive : Option Nat
  deriving Repr, DecidableEq

/-- Disable the record at an index, leaving the rest untouched. -/
def disableAt : List PreviewRec → Nat → List PreviewRec
  | [], _ => []
  | _ :: ps, 0 => disabledPreviewRec :: ps
  | p :: ps, n + 1 => p :: disableAt ps n

/-- `disablePreviousPreview` (Composer.js 1584-1616). -/
def disablePreviousPreview (s : ComposerChatState) : ComposerChatState :=
  match s.currentActive with
  | none => s
  | some i => { s with previews := disableAt s.previews i }

/-- Creating a new diff preview (Composer.js 1154-1159 and 1429-1431):
disable the previous one, append the new one, repoint
`currentActivePreview`. -/
def newPreview (s : ComposerChatState) : ComposerChatState :=
  let s1 := disablePreviousPreview s
  { previews := s1.previews ++ [freshPreviewRec]
    currentActive := some s1.previews.length }

/-- Composer chat states reachable from an empty chat by repeatedly
creating diff previews. -/
inductive ComposerReachable : ComposerChatState → Prop
  | init : ComposerReachable ⟨[], none⟩
  | step (s : ComposerChatState) : ComposerReachable s → ComposerReachable (newPreview s)

theorem disableAt_length (ps : List PreviewRec) : ∀ (i : Nat), (disableAt ps i).length = ps.length := by
  induction ps with
  | nil => intro i; rfl
  | cons p ps ih =>
    intro i
    cases i with
    | zero => rfl
    | succ n =>
      show (p :: disableAt ps n).length = (p :: ps).length
      simp [ih n]

theorem disableAt_getD_self (ps : List PreviewRec) :
    ∀ (i : Nat), i < ps.length → (disableAt ps i).getD i freshPreviewRec = disabledPreviewRec := by
  induction ps with
  | nil => intro i h; simp at h
  | cons p ps ih =>
    intro i h
    cases i with
    | zero => rfl
    | succ n =>
      show (p :: disableAt ps n).getD (n + 1) freshPreviewRec = disabledPreviewRec
      rw [List.getD_cons_succ]
      exact ih n (by simpa using h)

theorem disableAt_getD_other (ps : List PreviewRec) :
    ∀ (i j : Nat), j ≠ i → (disableAt ps i).getD j freshPreviewRec = ps.getD j freshPreviewRec := by
  induction ps with
  | nil => intro i j _; cases i <;> rfl
  | cons p ps ih =>
    intro i j hne
    cases i with
    | zero =>
      cases j with
      | zero => exact absurd rfl hne
      | succ m =>
        show (disabledPreviewRec :: ps).getD (m + 1) freshPreviewRec = _
        rw [List.getD_cons_succ, List.getD_cons_succ]
    | succ n =>
      cases j with
      | zero => rfl
      | succ m =>
        show (p :: disableAt ps n).getD (m + 1) freshPreviewRec = _
        rw [List.getD_cons_succ, List.getD_cons_succ]
        exact ih n m (by omega)

/-- The inductive invariant: the active pointer is in range, and every
preview other than the active one is disabled and dimmed. -/
def chatInv (s : ComposerChatState) : Prop :=
  (∀ i, s.currentActive = some i → i < s.previews.length)
    ∧ ∀ j, j < s.previews.length → s.currentActive ≠ some j →
        (s.previews.getD j freshPreviewRec).inactiveClass = true
          ∧ (s.previews.getD j freshPreviewRec).buttonsDisabled = true

theorem chatInv_reachable {s : ComposerChatState} (hr : ComposerReachable s) : chatInv s := by
  induction hr with
  | init =>
    refine ⟨fun i hi => by simp at hi, fun j hj _ => ?_⟩
    simp at hj
  | step s _ ih =>
    obtain ⟨ihRange, ihOthers⟩ := ih
    constructor
    · intro i hi
      unfold newPreview at hi ⊢
      simp only [Option.some_inj] at hi
      subst hi
      simp
    · intro j hj hne
      unfold newPreview at hj hne ⊢
      simp only at hj hne ⊢
      cases hact : s.currentActive with
      | none =>
        have hdp : disablePreviousPreview s = s := by
          unfold disablePreviousPreview
          rw [hact]
        rw [hdp] at hj hne ⊢
        have hjlen : j < s.previews.length := by
          by_contra hbig
          have : j = s.previews.length := by
            simp [List.length_append] at hj
            omega
          exact hne (by rw [this])
        rw [List.getD_append _ _ _ _ (by omega)]
        exact ihOthers j hjlen (by rw [hact]; intro hc; cases hc)
      | some i =>
        have hilen : i < s.previews.length := ihRange i hact
        have hdp : disablePreviousPreview s
            = { s with previews := disableAt s.previews i } := by
          unfold disablePreviousPreview
          rw [hact]
        rw [hdp] at hj hne ⊢
        simp only [List.length_append, List.length_cons, List.length_nil,
          disableAt_length] at hj hne ⊢
        have hjlen : j < s.previews.length := by
          by_contra hbig
          have : j = s.previews.length := by omega
          exact hne (by rw [this])
        rw [List.getD_append _ _ _ _ (by rw [disableAt_length]; omega)]
        by_cases hji : j = i
        · subst hji
          rw [disableAt_getD_self s.previews j hjlen]
          exact ⟨rfl, rfl⟩
        · rw [disableAt_getD_other s.previews i j hji]
          exact ihOthers j hjlen (by rw [hact]; intro hc; injection hc with hc; omega)

/-- C5: at most one preview is active at a time (any two non-dimmed
previews in a reachable chat state coincide), and creating a new
preview forcibly disables the previously active one — buttons disabled,
`inactive` class and label set — while keeping every existing preview
in the chat history (the history only grows, and the other previews
are untouched). -/
theorem single_active_preview (s : ComposerChatState) (hr : ComposerReachable s) :
    (∀ j k, j < s.previews.length → k < s.previews.length →
        (s.previews.getD j freshPreviewRec).inactiveClass = false →
        (s.previews.getD k freshPreviewRec).inactiveClass = false → j = k)
      ∧ (∀ i, s.currentActive = some i →
          ((newPreview s).previews.getD i freshPreviewRec).buttonsDisabled = true
            ∧ ((newPreview s).previews.getD i freshPreviewRec).inactiveClass = true
            ∧ ((newPreview s).previews.getD i freshPreviewRec).inactiveLabel = true
            ∧ (newPreview s).previews.length = s.previews.length + 1
            ∧ ∀ j, j < s.previews.length → j ≠ i →
                (newPreview s).previews.getD j freshPreviewRec
                  = s.previews.getD j freshPreviewRec) := by
  obtain ⟨hRange, hOthers⟩ := chatInv_reachable hr
  constructor
  · intro j k hj hk hjact hkact
    have hj' : s.currentActive = some j := by
      by_contra hne
      have hc := (hOthers j hj hne).1
      rw [hjact] at hc
      exact Bool.false_ne_true hc
    have hk' : s.currentActive = some k := by
      by_contra hne
      have hc := (hOthers k hk hne).1
      rw [hkact] at hc
      exact Bool.false_ne_true hc
    rw [hj'] at hk'
    injection hk'
  · intro i hact
    have hilen : i < s.previews.length := hRange i hact
    have hdp : disablePreviousPreview s
        = { s with previews := disableAt s.previews i } := by
      unfold disablePreviousPreview
      rw [hact]
    unfold newPreview
    rw [hdp]
    simp only [List.length_append, List.length_cons, List.length_nil, disableAt_length]
    have hgetAct : (disableAt s.previews i ++ [freshPreviewRec]).getD i freshPreviewRec
        = disabledPreviewRec := by
      rw [List.getD_append _ _ _ _ (by rw [disableAt_length]; omega)]
      exact disableAt_getD_self s.previews i hilen
    refine ⟨by rw [hgetAct]; rfl, by rw [hgetAct]; rfl, by rw [hgetAct]; rfl,
      by simp [disableAt_length], ?_⟩
    intro j hj hji
    rw [List.getD_append _ _ _ _ (by rw [disableAt_length]; omega)]
    exact disableAt_getD_other s.previews i j hji

/-- Witness for C5: the theorem applied to the two-preview reachable
state. -/
theorem single_active_preview_witness :
    ComposerReachable (newPreview (newPreview ⟨[], none⟩))
      ∧ ((∀ j k, j < (newPreview (newPreview ⟨[], none⟩)).previews.length →
            k < (newPreview (newPreview ⟨[], none⟩)).previews.length →
            ((newPreview (newPreview ⟨[], none⟩)).previews.getD j freshPreviewRec).inactiveClass
              = false →
            ((newPreview (newPreview ⟨[], none⟩)).previews.getD k freshPreviewRec).inactiveClass
              = false → j = k)
          ∧ (∀ i, (newPreview (newPreview ⟨[], none⟩)).currentActive = some i →
              ((newPreview (newPreview (newPreview ⟨[], none⟩))).previews.getD i
                  freshPreviewRec).buttonsDisabled = true
                ∧ ((newPreview (newPreview (newPreview ⟨[], none⟩))).previews.getD i
                    freshPreviewRec).inactiveClass = true
                ∧ ((newPreview (newPreview (newPreview ⟨[], none⟩))).previews.getD i
                    freshPreviewRec).inactiveLabel = true
                ∧ (newPreview (newPreview (newPreview ⟨[], none⟩))).previews.length
                    = (newPreview (newPreview ⟨[], none⟩)).previews.length + 1
                ∧ ∀ j, j < (newPreview (newPreview ⟨[], none⟩)).previews.length → j ≠ i →
                    (newPreview (newPreview (newPreview ⟨[], none⟩))).previews.getD j
                        freshPreviewRec
                      = (newPreview (newPreview ⟨[], none⟩)).previews.getD j freshPreviewRec)) :=
  ⟨ComposerReachable.step _ (ComposerReachable.step _ ComposerReachable.init),
   single_active_preview (newPreview (newPreview ⟨[], none⟩))
     (ComposerReachable.step _ (ComposerReachable.step _ ComposerReachable.init))⟩

/-! ## The completion rate limiter (codeCompletion/config.js 59-247)

The `RateLimiter` class.  Times are modelled as rationals (JavaScript
numbers; every value reachable here — millisecond timestamps, and
backoff values obtained from 1000 by doubling, halving and clamping —
is exactly representable).  The single-threaded `processQueue` loop is
modelled with explicit fuel and a clock stream supplying the value of
`Date.now()` at each iteration; a request's `requestFn` is modelled by
an oracle from request identities to either a result (`some`) or a
thrown error (`none`). -/

/-- `CodeCompletionConfig.rateLimit` (config.js 22-30). -/
structure RateLimitConfig where
  maxRequestsInline : Nat
  timeWindowMs : ℚ
  minBackoffMs : ℚ
  maxBackoffMs : ℚ
  consecutiveFailuresBeforeBackoff : Nat
  deriving Repr, DecidableEq

def rateLimitConfig : RateLimitConfig :=
  { maxRequestsInline := 3
    timeWindowMs := 4000
    minBackoffMs := 1000
    maxBackoffMs := 5000
    consecutiveFailuresBeforeBackoff := 3 }

/-- A queued completion request: its identity (standing in for the
`requestFn`/`resolve` closure pair), cursor offset, full text, and
enqueue timestamp. -/
structure RLRequest where
  rid : Nat
  cursorOffset : Nat
  text : String
  timestamp : ℚ
  deriving Repr, DecidableEq

/-- The tracked editing context (`setCurrentContext`). -/
structure RLContext where
  cursorOffset : Nat
  contextKey : String
  deriving Repr, DecidableEq

/-- The mutable state of the `RateLimiter` instance. -/
structure RLState where
  requests : List ℚ
  lastRequestTime : ℚ
  backoffTime : ℚ
  consecutiveFailures : Nat
  lastProcessedText : String
  pendingRequests : List RLRequest
  currentContext : Option RLContext
  deriving Repr, DecidableEq

/-- A fresh rate limiter (constructor, config.js 60-80). -/
def newRateLimiter : RLState :=
  { requests := []
    lastRequestTime := 0
    backoffTime := rateLimitConfig.minBackoffMs
    consecutiveFailures := 0
    lastProcessedText := ""
    pendingRequests := []
    currentContext := none }

/-- `text.slice(Math.max(0, cursorOffset - 100), cursorOffset)`: the
100 characters of text before the cursor. -/
def contextKeyOf (cursorOffset : Nat) (text : String) : String :=
  String.mk ((text.toList.drop (cursorOffset - 100)).take (cursorOffset - (cursorOffset - 100)))

/-- `RateLimiter.setCurrentContext` (config.js 82-87). -/
def setCurrentContext (s : RLState) (cursorOffset : Nat) (text : String) : RLState :=
  { s with currentContext := some ⟨cursorOffset, contextKeyOf cursorOffset text⟩ }

/-- `RateLimiter.isContextStale` (config.js 89-94). -/
def isContextStale (s : RLState) (cursorOffset : Nat) (text : String) : Bool :=
  match s.currentContext with
  | none => false
  | some ctx => ctx.contextKey ≠ contextKeyOf cursorOffset text

/-- The state mutation of `RateLimiter.addToQueue` (config.js 96-115):
update the context, drop stale queue entries, push the new request. -/
def addToQueue (s : RLState) (r : RLRequest) : RLState :=
  let s1 := setCurrentContext s r.cursorOffset r.text
  { s1 with pendingRequests :=
      (s1.pendingRequests.filter fun q => ¬ isContextStale s1 q.cursorOffset q.text) ++ [r] }

/-- `RateLimiter.handleSuccess` (config.js 220-226). -/
def handleSuccess (s : RLState) : RLState :=
  { s with consecutiveFailures := 0
           backoffTime := max rateLimitConfig.minBackoffMs (s.backoffTime * (0.5 : ℚ)) }

/-- `RateLimiter.handleFailure` (config.js 228-234). -/
def handleFailure (s : RLState) : RLState :=
  { s with consecutiveFailures := s.consecutiveFailures + 1
           backoffTime := min (s.backoffTime * 2) rateLimitConfig.maxBackoffMs }

/-- `RateLimiter.reset` (config.js 236-246); it does not touch
`currentContext`. -/
def resetLimiter (s : RLState) : RLState :=
  { requests := []
    lastRequestTime := 0
    backoffTime := rateLimitConfig.minBackoffMs
    consecutiveFailures := 0
    lastProcessedText := ""
    pendingRequests := []
    currentContext := s.currentContext }

/-- `RateLimiter.filterOldRequests` (config.js 167-170). -/
def filterOldRequests (now : ℚ) (s : RLState) : RLState :=
  { s with requests := s.requests.filter fun t => now - t < rateLimitConfig.timeWindowMs }

/-- `RateLimiter.canMakeRequest` (config.js 187-205): the decision and
the state after its `filterOldRequests` side effect. -/
def canMakeRequest (now : ℚ) (s : RLState) : Bool × RLState :=
  if rateLimitConfig.consecutiveFailuresBeforeBackoff ≤ s.consecutiveFailures then (false, s)
  else if now - s.lastRequestTime < rateLimitConfig.minBackoffMs then (false, s)
  else
    let s1 := filterOldRequests now s
    (decide (s1.requests.length < rateLimitConfig.maxRequestsInline), s1)

/-- The outcome of a `processQueue` run: the final limiter state, the
`(request, value)` pairs resolved, and the requests whose `requestFn`
was actually invoked. -/
structure ProcOut where
  state : RLState
  resolved : List (Nat × Option String)
  called : List Nat
  deriving Repr, DecidableEq

/-- `RateLimiter.processQueue` (config.js 117-165), with explicit fuel
(the loop interleaves waits, so it has no structural measure), a clock
stream giving `Date.now()` per iteration, and an oracle `exec` giving
each request's `requestFn` outcome (`some v`: resolves with `v`;
`none`: throws). -/
def processQueue (exec : Nat → Option (Option String)) :
    Nat → List ℚ → RLState → ProcOut
  | 0, _, s => ⟨s, [], []⟩
  | fuel + 1, clock, s =>
    match s.pendingRequests with
    | [] => ⟨s, [], []⟩
    | r :: rest =>
      let now := clock.headD 0
      let clock' := clock.tail
      if isContextStale s r.cursorOffset r.text then
        let out := processQueue exec fuel clock' { s with pendingRequests := rest }
        ⟨out.state, (r.rid, none) :: out.resolved, out.called⟩
      else if 2000 < now - r.timestamp then
        let out := processQueue exec fuel clock' { s with pendingRequests := rest }
        ⟨out.state, (r.rid, none) :: out.resolved, out.called⟩
      else
        let cm := canMakeRequest now s
        if cm.1 = false then
          processQueue exec fuel clock' cm.2
        else
          match exec r.rid with
          | some v =>
            let out := processQueue exec fuel clock'
              (handleSuccess { cm.2 with pendingRequests := rest })
            ⟨out.state, (r.rid, v) :: out.resolved, r.rid :: out.called⟩
          | none =>
            let out := processQueue exec fuel clock'
              (handleFailure { cm.2 with pendingRequests := rest })
            ⟨out.state, (r.rid, none) :: out.resolved, r.rid :: out.called⟩

/-! ## Unfolding equations for `processQueue` -/

theorem processQueue_zero (exec : Nat → Option (Option String)) (clock : List ℚ)
    (s : RLState) : processQueue exec 0 clock s = ⟨s, [], []⟩ := rfl

theorem processQueue_nil (exec : Nat → Option (Option String)) (fuel : Nat) (clock : List ℚ)
    (s : RLState) (hp : s.pendingRequests = []) :
    processQueue exec (fuel + 1) clock s = ⟨s, [], []⟩ := by
  conv_lhs => unfold processQueue
  split
  next => rfl
  next r2 rest2 heq => rw [hp] at heq; cases heq

theorem processQueue_cons_stale (exec : Nat → Option (Option String)) (fuel : Nat)
    (clock : List ℚ) (s : RLState) (r : RLRequest) (rest : List RLRequest)
    (hp : s.pendingRequests = r :: rest)
    (hstale : isContextStale s r.cursorOffset r.text = true) :
    processQueue exec (fuel + 1) clock s
      = ⟨(processQueue exec fuel clock.tail { s with pendingRequests := rest }).state,
         (r.rid, none) :: (processQueue exec fuel clock.tail
            { s with pendingRequests := rest }).resolved,
         (processQueue exec fuel clock.tail { s with pendingRequests := rest }).called⟩ := by
  conv_lhs => unfold processQueue
  split
  next heq => rw [hp] at heq; cases heq
  next r2 rest2 heq =>
    rw [hp] at heq
    injection heq with h1 h2
    subst h1
    subst h2
    simp only [hstale, if_true]

theorem processQueue_cons_old (exec : Nat → Option (Option String)) (fuel : Nat)
    (clock : List ℚ) (s : RLState) (r : RLRequest) (rest : List RLRequest)
    (hp : s.pendingRequests = r :: rest)
    (hstale : isContextStale s r.cursorOffset r.text = false)
    (hold : 2000 < clock.headD 0 - r.timestamp) :
    processQueue exec (fuel + 1) clock s
      = ⟨(processQueue exec fuel clock.tail { s with pendingRequests := rest }).state,
         (r.rid, none) :: (processQueue exec fuel clock.tail
            { s with pendingRequests := rest }).resolved,
         (processQueue exec fuel clock.tail { s with pendingRequests := rest }).called⟩ := by
  conv_lhs => unfold processQueue
  split
  next heq => rw [hp] at heq; cases heq
  next r2 rest2 heq =>
    rw [hp] at heq
    injection heq with h1 h2
    subst h1
    subst h2
    simp only [hstale, Bool.false_eq_true, if_false]
    rw [if_pos hold]

theorem processQueue_cons_wait (exec : Nat → Option (Option String)) (fuel : Nat)
    (clock : List ℚ) (s : RLState) (r : RLRequest) (rest : List RLRequest)
    (hp : s.pendingRequests = r :: rest)
    (hstale : isContextStale s r.cursorOffset r.text = false)
    (hold : ¬ (2000 < clock.headD 0 - r.timestamp))
    (hcm : (canMakeRequest (clock.headD 0) s).1 = false) :
    processQueue exec (fuel + 1) clock s
      = processQueue exec fuel clock.tail (canMakeRequest (clock.headD 0) s).2 := by
  conv_lhs => unfold processQueue
  split
  next heq => rw [hp] at heq; cases heq
  next r2 rest2 heq =>
    rw [hp] at heq
    injection heq with h1 h2
    subst h1
    subst h2
    simp only [hstale, Bool.false_eq_true, if_false]
    rw [if_neg hold, if_pos hcm]

theorem processQueue_cons_exec_ok (exec : Nat → Option (Option String)) (fuel : Nat)
    (clock : List ℚ) (s : RLState) (r : RLRequest) (rest : List RLRequest)
    (v : Option String) (hp : s.pendingRequests = r :: rest)
    (hstale : isContextStale s r.cursorOffset r.text = false)
    (hold : ¬ (2000 < clock.headD 0 - r.timestamp))
    (hcm : (canMakeRequest (clock.headD 0) s).1 = true)
    (hex : exec r.rid = some v) :
    processQueue exec (fuel + 1) clock s
      = ⟨(processQueue exec fuel clock.tail
            (handleSuccess { (canMakeRequest (clock.headD 0) s).2 with
              pendingRequests := rest })).state,
         (r.rid, v) :: (processQueue exec fuel clock.tail
            (handleSuccess { (canMakeRequest (clock.headD 0) s).2 with
              pendingRequests := rest })).resolved,
         r.rid :: (processQueue exec fuel clock.tail
            (handleSuccess { (canMakeRequest (clock.headD 0) s).2 with
              pendingRequests := rest })).called⟩ := by
  conv_lhs => unfold processQueue
  split
  next heq => rw [hp] at heq; cases heq
  next r2 rest2 heq =>
    rw [hp] at heq
    injection heq with h1 h2
    subst h1
    subst h2
    simp only [hstale, Bool.false_eq_true, if_false]
    rw [if_neg hold, if_neg (by rw [hcm]; exact fun hc => absurd hc (by decide))]
    rw [hex]

theorem processQueue_cons_exec_err (exec : Nat → Option (Option String)) (fuel : Nat)
    (clock : List ℚ) (s : RLState) (r : RLRequest) (rest : List RLRequest)
    (hp : s.pendingRequests = r :: rest)
    (hstale : isContextStale s r.cursorOffset r.text = false)
    (hold : ¬ (2000 < clock.headD 0 - r.timestamp))
    (hcm : (canMakeRequest (clock.headD 0) s).1 = true)
    (hex : exec r.rid = none) :
    processQueue exec (fuel + 1) clock s
      = ⟨(processQueue exec fuel clock.tail
            (handleFailure { (canMakeRequest (clock.headD 0) s).2 with
              pendingRequests := rest })).state,
         (r.rid, none) :: (processQueue exec fuel clock.tail
            (handleFailure { (canMakeRequest (clock.headD 0) s).2 with
              pendingRequests := rest })).resolved,
         r.rid :: (processQueue exec fuel clock.tail
            (handleFailure { (canMakeRequest (clock.headD 0) s).2 with
              pendingRequests := rest })).called⟩ := by
  conv_lhs => unfold processQueue
  split
  next heq => rw [hp] at heq; cases heq
  next r2 rest2 heq =>
    rw [hp] at heq
    injection heq with h1 h2
    subst h1
    subst h2
    simp only [hstale, Bool.false_eq_true, if_false]
    rw [if_neg hold, if_neg (by rw [hcm]; exact fun hc => absurd hc (by decide))]
    rw [hex]

/-! ## Claim C7: stale requests are discarded, not executed -/

theorem isContextStale_congr {s s' : RLState} (h : s'.currentContext = s.currentContext)
    (c : Nat) (t : String) : isContextStale s' c t = isContextStale s c t := by
  unfold isContextStale
  rw [h]

theorem canMakeRequest_snd_ctx (now : ℚ) (s : RLState) :
    (canMakeRequest now s).2.currentContext = s.currentContext := by
  unfold canMakeRequest
  split
  next => rfl
  next =>
    split
    next => rfl
    next => rfl

theorem canMakeRequest_snd_pending (now : ℚ) (s : RLState) :
    (canMakeRequest now s).2.pendingRequests = s.pendingRequests := by
  unfold canMakeRequest
  split
  next => rfl
  next =>
    split
    next => rfl
    next => rfl

theorem processQueue_called_sub (exec : Nat → Option (Option String)) :
    ∀ (fuel : Nat) (clock : List ℚ) (s : RLState) (x : Nat),
      x ∈ (processQueue exec fuel clock s).called → x ∈ s.pendingRequests.map RLRequest.rid := by
  intro fuel
  induction fuel with
  | zero =>
    intro clock s x hx
    rw [processQueue_zero] at hx
    cases hx
  | succ fuel ih =>
    intro clock s x hx
    rcases hp : s.pendingRequests with _ | ⟨r0, rest0⟩
    · rw [processQueue_nil exec fuel clock s hp] at hx
      cases hx
    · rw [List.map_cons]
      cases hst0 : isContextStale s r0.cursorOffset r0.text with
      | true =>
        rw [processQueue_cons_stale exec fuel clock s r0 rest0 hp hst0] at hx
        exact List.mem_cons_of_mem _ (ih clock.tail _ x hx)
      | false =>
        by_cases hold : 2000 < clock.headD 0 - r0.timestamp
        · rw [processQueue_cons_old exec fuel clock s r0 rest0 hp hst0 hold] at hx
          exact List.mem_cons_of_mem _ (ih clock.tail _ x hx)
        · cases hcm : (canMakeRequest (clock.headD 0) s).1 with
          | false =>
            rw [processQueue_cons_wait exec fuel clock s r0 rest0 hp hst0 hold hcm] at hx
            have := ih clock.tail _ x hx
            rw [canMakeRequest_snd_pending, hp, List.map_cons] at this
            exact this
          | true =>
            cases hex : exec r0.rid with
            | none =>
              rw [processQueue_cons_exec_err exec fuel clock s r0 rest0 hp hst0 hold hcm hex] at hx
              rcases List.mem_cons.mp hx with hx | hx
              · exact hx ▸ List.mem_cons_self _ _
              · exact List.mem_cons_of_mem _ (ih clock.tail _ x hx)
            | some v =>
              rw [processQueue_cons_exec_ok exec fuel clock s r0 rest0 v hp hst0 hold hcm hex] at hx
              rcases List.mem_cons.mp hx with hx | hx
              · exact hx ▸ List.mem_cons_self _ _
              · exact List.mem_cons_of_mem _ (ih clock.tail _ x hx)

theorem processQueue_pending_sub (exec : Nat → Option (Option String)) :
    ∀ (fuel : Nat) (clock : List ℚ) (s : RLState) (q : RLRequest),
      q ∈ (processQueue exec fuel clock s).state.pendingRequests → q ∈ s.pendingRequests := by
  intro fuel
  induction fuel with
  | zero =>
    intro clock s q hq
    rw [processQueue_zero] at hq
    exact hq
  | succ fuel ih =>
    intro clock s q hq
    rcases hp : s.pendingRequests with _ | ⟨r0, rest0⟩
    · rw [processQueue_nil exec fuel clock s hp] at hq
      have hq' : q ∈ s.pendingRequests := hq
      rw [hp] at hq'
      exact hq'
    · 
      cases hst0 : isContextStale s r0.cursorOffset r0.text with
      | true =>
        rw [processQueue_cons_stale exec fuel clock s r0 rest0 hp hst0] at hq
        exact List.mem_cons_of_mem _ (ih clock.tail _ q hq)
      | false =>
        by_cases hold : 2000 < clock.headD 0 - r0.timestamp
        · rw [processQueue_cons_old exec fuel clock s r0 rest0 hp hst0 hold] at hq
          exact List.mem_cons_of_mem _ (ih clock.tail _ q hq)
        · cases hcm : (canMakeRequest (clock.headD 0) s).1 with
          | false =>
            rw [processQueue_cons_wait exec fuel clock s r0 rest0 hp hst0 hold hcm] at hq
            have := ih clock.tail _ q hq
            rw [canMakeRequest_snd_pending, hp] at this
            exact this
          | true =>
            cases hex : exec r0.rid with
            | none =>
              rw [processQueue_cons_exec_err exec fuel clock s r0 rest0 hp hst0 hold hcm hex] at hq
              exact List.mem_cons_of_mem _ (ih clock.tail _ q hq)
            | some v =>
              rw [processQueue_cons_exec_ok exec fuel clock s r0 rest0 v hp hst0 hold hcm hex] at hq
              exact List.mem_cons_of_mem _ (ih clock.tail _ q hq)

/-- C7: a queue entry whose 100-characters-before-cursor context no
longer matches the rate limiter's current editing context is never
executed by `processQueue`: its `requestFn` is never invoked, whenever
it is removed from the queue it has been resolved with `null`, and when
it reaches the head of the queue it is removed and resolved with `null`
immediately. -/
theorem stale_request_never_executed (exec : Nat → Option (Option String))
    (fuel : Nat) (clock : List ℚ) (s : RLState) (r : RLRequest)
    (hmem : r ∈ s.pendingRequests)
    (hstale : isContextStale s r.cursorOffset r.text = true)
    (hnodup : (s.pendingRequests.map RLRequest.rid).Nodup) :
    r.rid ∉ (processQueue exec fuel clock s).called
      ∧ (r ∉ (processQueue exec fuel clock s).state.pendingRequests →
          (r.rid, none) ∈ (processQueue exec fuel clock s).resolved)
      ∧ (∀ rest, s.pendingRequests = r :: rest → 0 < fuel →
          (r.rid, none) ∈ (processQueue exec fuel clock s).resolved
            ∧ r ∉ (processQueue exec fuel clock s).state.pendingRequests) := by
  induction fuel generalizing clock s with
  | zero =>
    rw [processQueue_zero]
    exact ⟨by simp, fun hni => absurd hmem hni,
      fun rest hrest h0 => absurd h0 (by omega)⟩
  | succ fuel ih =>
    rcases hp : s.pendingRequests with _ | ⟨r0, rest0⟩
    · rw [hp] at hmem
      cases hmem
    · have hnodup' : (rest0.map RLRequest.rid).Nodup := by
        rw [hp, List.map_cons, List.nodup_cons] at hnodup
        exact hnodup.2
      have hhead_notin : r0.rid ∉ rest0.map RLRequest.rid := by
        rw [hp, List.map_cons, List.nodup_cons] at hnodup
        exact hnodup.1
      by_cases hr0 : r = r0
      · subst hr0
        rw [processQueue_cons_stale exec fuel clock s r rest0 hp hstale]
        have hrid_notin : r.rid ∉ rest0.map RLRequest.rid := hhead_notin
        refine ⟨?_, fun _ => List.mem_cons_self _ _,
          fun rest hrest _ => ⟨List.mem_cons_self _ _, ?_⟩⟩
        · intro hc
          exact hrid_notin (processQueue_called_sub exec fuel clock.tail _ r.rid hc)
        · intro hin
          have hsub := processQueue_pending_sub exec fuel clock.tail
            { s with pendingRequests := rest0 } r hin
          exact hrid_notin (List.mem_map_of_mem RLRequest.rid hsub)
      · have hmem0 : r ∈ rest0 := by
          rw [hp] at hmem
          rcases List.mem_cons.mp hmem with he | he
          · exact absurd he hr0
          · exact he
        have hthird : ∀ (rest : List RLRequest), r0 :: rest0 = r :: rest → False := by
          intro rest hrest
          injection hrest with h1 _
          exact hr0 h1.symm
        cases hst0 : isContextStale s r0.cursorOffset r0.text with
        | true =>
          rw [processQueue_cons_stale exec fuel clock s r0 rest0 hp hst0]
          have hih := ih clock.tail { s with pendingRequests := rest0 } hmem0 hstale hnodup'
          exact ⟨hih.1, fun hni => List.mem_cons_of_mem _ (hih.2.1 hni),
            fun rest hrest _ => absurd (hthird rest hrest) not_false⟩
        | false =>
          by_cases hold : 2000 < clock.headD 0 - r0.timestamp
          · rw [processQueue_cons_old exec fuel clock s r0 rest0 hp hst0 hold]
            have hih := ih clock.tail { s with pendingRequests := rest0 } hmem0 hstale hnodup'
            exact ⟨hih.1, fun hni => List.mem_cons_of_mem _ (hih.2.1 hni),
              fun rest hrest _ => absurd (hthird rest hrest) not_false⟩
          · cases hcm : (canMakeRequest (clock.headD 0) s).1 with
            | false =>
              rw [processQueue_cons_wait exec fuel clock s r0 rest0 hp hst0 hold hcm]
              have hmem' : r ∈ (canMakeRequest (clock.headD 0) s).2.pendingRequests := by
                rw [canMakeRequest_snd_pending, hp]
                exact List.mem_cons_of_mem _ hmem0
              have hstale' : isContextStale (canMakeRequest (clock.headD 0) s).2
                  r.cursorOffset r.text = true := by
                rw [isContextStale_congr (canMakeRequest_snd_ctx (clock.headD 0) s)]
                exact hstale
              have hnodup'' :
                  ((canMakeRequest (clock.headD 0) s).2.pendingRequests.map RLRequest.rid).Nodup := by
                rw [canMakeRequest_snd_pending]
                exact hnodup
              have hih := ih clock.tail _ hmem' hstale' hnodup''
              refine ⟨hih.1, hih.2.1, fun rest hrest _ => absurd (hthird rest hrest) not_false⟩
            | true =>
              have hrid_ne : r.rid ≠ r0.rid := by
                intro he
                exact hhead_notin (he ▸ List.mem_map_of_mem RLRequest.rid hmem0)
              cases hex : exec r0.rid with
              | none =>
                rw [processQueue_cons_exec_err exec fuel clock s r0 rest0 hp hst0 hold hcm hex]
                have hstale' : isContextStale
                    (handleFailure { (canMakeRequest (clock.headD 0) s).2 with
                      pendingRequests := rest0 }) r.cursorOffset r.text = true := by
                  rw [isContextStale_congr (show (handleFailure
                      { (canMakeRequest (clock.headD 0) s).2 with
                        pendingRequests := rest0 }).currentContext
                      = s.currentContext from canMakeRequest_snd_ctx (clock.headD 0) s)]
                  exact hstale
                have hih := ih clock.tail _ hmem0 hstale' hnodup'
                refine ⟨?_, fun hni => List.mem_cons_of_mem _ (hih.2.1 hni),
                  fun rest hrest _ => absurd (hthird rest hrest) not_false⟩
                intro hc
                rcases List.mem_cons.mp hc with he | he
                · exact hrid_ne he
                · exact hih.1 he
              | some v =>
                rw [processQueue_cons_exec_ok exec fuel clock s r0 rest0 v hp hst0 hold hcm hex]
                have hstale' : isContextStale
                    (handleSuccess { (canMakeRequest (clock.headD 0) s).2 with
                      pendingRequests := rest0 }) r.cursorOffset r.text = true := by
                  rw [isContextStale_congr (show (handleSuccess
                      { (canMakeRequest (clock.headD 0) s).2 with
                        pendingRequests := rest0 }).currentContext
                      = s.currentContext from canMakeRequest_snd_ctx (clock.headD 0) s)]
                  exact hstale
                have hih := ih clock.tail _ hmem0 hstale' hnodup'
                refine ⟨?_, fun hni => ?_, fun rest hrest _ => absurd (hthird rest hrest) not_false⟩
                · intro hc
                  rcases List.mem_cons.mp hc with he | he
                  · exact hrid_ne he
                  · exact hih.1 he
                · have := hih.2.1 hni
                  exact List.mem_cons_of_mem _ this

/-- Witness for C7: a concrete one-request queue whose context is
stale, drained with fuel 2. -/
theorem stale_request_never_executed_witness :
    ((⟨1, 0, "x", 0⟩ : RLRequest) ∈ ({ newRateLimiter with
          pendingRequests := [⟨1, 0, "x", 0⟩],
          currentContext := some ⟨0, "abc"⟩ } : RLState).pendingRequests
        ∧ isContextStale { newRateLimiter with
            pendingRequests := [⟨1, 0, "x", 0⟩],
            currentContext := some ⟨0, "abc"⟩ } 0 "x" = true)
      ∧ (1 ∉ (processQueue (fun _ => some (some "c")) 2 [0, 0]
            { newRateLimiter with
              pendingRequests := [⟨1, 0, "x", 0⟩],
              currentContext := some ⟨0, "abc"⟩ }).called
          ∧ ((1, (none : Option String)) ∈ (processQueue (fun _ => some (some "c")) 2 [0, 0]
              { newRateLimiter with
                pendingRequests := [⟨1, 0, "x", 0⟩],
                currentContext := some ⟨0, "abc"⟩ }).resolved)) := by
  constructor
  · exact ⟨by decide, by decide⟩
  · have h := stale_request_never_executed (fun _ => some (some "c")) 2 [0, 0]
      { newRateLimiter with
        pendingRequests := [⟨1, 0, "x", 0⟩],
        currentContext := some ⟨0, "abc"⟩ } ⟨1, 0, "x", 0⟩
      (by decide) (by decide) (by decide)
    exact ⟨h.1, (h.2.2 [] (by decide) (by omega)).1⟩

/-! ## Claim C8: the backoff stays within `[minBackoffMs, maxBackoffMs]` -/

/-- The three operations that modify the rate limiter's backoff. -/
inductive RLOp where
  | success
  | failure
  | reset
  deriving Repr, DecidableEq

def applyRLOp (s : RLState) : RLOp → RLState
  | .success => handleSuccess s
  | .failure => handleFailure s
  | .reset => resetLimiter s

theorem backoff_step_bounded (s : RLState)
    (h1 : rateLimitConfig.minBackoffMs ≤ s.backoffTime)
    (h2 : s.backoffTime ≤ rateLimitConfig.maxBackoffMs) (op : RLOp) :
    rateLimitConfig.minBackoffMs ≤ (applyRLOp s op).backoffTime
      ∧ (applyRLOp s op).backoffTime ≤ rateLimitConfig.maxBackoffMs := by
  simp only [rateLimitConfig] at h1 h2 ⊢
  cases op with
  | success =>
    show (1000 : ℚ) ≤ max 1000 (s.backoffTime * 0.5) ∧ max 1000 (s.backoffTime * 0.5) ≤ 5000
    constructor
    · exact le_max_left _ _
    · apply max_le
      · norm_num
      · linarith
  | failure =>
    show (1000 : ℚ) ≤ min (s.backoffTime * 2) 5000 ∧ min (s.backoffTime * 2) 5000 ≤ 5000
    constructor
    · apply le_min
      · linarith
      · norm_num
    · exact min_le_right _ _
  | reset =>
    show (1000 : ℚ) ≤ (1000 : ℚ) ∧ (1000 : ℚ) ≤ (5000 : ℚ)
    norm_num

/-- C8: starting from `minBackoffMs`, under every sequence of
`handleFailure` (double, capped), `handleSuccess` (halve, floored) and
`reset` (restore the minimum), the backoff time stays in the interval
`[minBackoffMs, maxBackoffMs] = [1000, 5000]`. -/
theorem backoff_within_bounds (ops : List RLOp) :
    rateLimitConfig.minBackoffMs ≤ (ops.foldl applyRLOp newRateLimiter).backoffTime
      ∧ (ops.foldl applyRLOp newRateLimiter).backoffTime ≤ rateLimitConfig.maxBackoffMs := by
  have general : ∀ (l : List RLOp) (s : RLState),
      rateLimitConfig.minBackoffMs ≤ s.backoffTime →
      s.backoffTime ≤ rateLimitConfig.maxBackoffMs →
      rateLimitConfig.minBackoffMs ≤ (l.foldl applyRLOp s).backoffTime
        ∧ (l.foldl applyRLOp s).backoffTime ≤ rateLimitConfig.maxBackoffMs := by
    intro l
    induction l with
    | nil => intro s h1 h2; exact ⟨h1, h2⟩
    | cons op rest ih =>
      intro s h1 h2
      rw [List.foldl_cons]
      have hstep := backoff_step_bounded s h1 h2 op
      exact ih (applyRLOp s op) hstep.1 hstep.2
  exact general ops newRateLimiter (le_of_eq rfl)
    (by norm_num [newRateLimiter, rateLimitConfig])

/-! ## Soundness of the edit script and its segmentation -/

theorem opsOldLines_append (a b : List DOp) :
    opsOldLines (a ++ b) = opsOldLines a ++ opsOldLines b := List.filterMap_append a b _

theorem opsNewLines_append (a b : List DOp) :
    opsNewLines (a ++ b) = opsNewLines a ++ opsNewLines b := List.filterMap_append a b _

theorem opsOldLines_map_del (xs : List String) : opsOldLines (xs.map DOp.del) = xs := by
  unfold opsOldLines
  rw [List.filterMap_map]
  have h : ((fun op => match op with
      | DOp.keep s => some s
      | DOp.del s => some s
      | DOp.ins _ => none) ∘ DOp.del) = some := by
    funext s; rfl
  rw [h, List.filterMap_some]

theorem opsOldLines_map_ins (ys : List String) : opsOldLines (ys.map DOp.ins) = [] := by
  unfold opsOldLines
  rw [List.filterMap_map]
  apply List.filterMap_eq_nil_iff.mpr
  intro a _
  rfl

theorem opsNewLines_map_ins (ys : List String) : opsNewLines (ys.map DOp.ins) = ys := by
  unfold opsNewLines
  rw [List.filterMap_map]
  have h : ((fun op => match op with
      | DOp.keep s => some s
      | DOp.ins s => some s
      | DOp.del _ => none) ∘ DOp.ins) = some := by
    funext s; rfl
  rw [h, List.filterMap_some]

theorem opsNewLines_map_del (xs : List String) : opsNewLines (xs.map DOp.del) = [] := by
  unfold opsNewLines
  rw [List.filterMap_map]
  apply List.filterMap_eq_nil_iff.mpr
  intro a _
  rfl

theorem lcsDiff_sound : ∀ (fuel : Nat) (xs ys : List String),
    opsOldLines (lcsDiff fuel xs ys) = xs ∧ opsNewLines (lcsDiff fuel xs ys) = ys := by
  intro fuel
  induction fuel with
  | zero =>
    intro xs ys
    show opsOldLines (xs.map .del ++ ys.map .ins) = xs
      ∧ opsNewLines (xs.map .del ++ ys.map .ins) = ys
    rw [opsOldLines_append, opsNewLines_append, opsOldLines_map_del, opsOldLines_map_ins,
      opsNewLines_map_del, opsNewLines_map_ins, List.append_nil, List.nil_append]
    exact ⟨rfl, rfl⟩
  | succ fuel ih =>
    intro xs ys
    match xs, ys with
    | [], ys =>
      show opsOldLines (ys.map .ins) = [] ∧ opsNewLines (ys.map .ins) = ys
      rw [opsOldLines_map_ins, opsNewLines_map_ins]
      exact ⟨rfl, rfl⟩
    | x :: xs, [] =>
      show opsOldLines ((x :: xs).map .del) = x :: xs
        ∧ opsNewLines ((x :: xs).map .del) = []
      rw [opsOldLines_map_del, opsNewLines_map_del]
      exact ⟨rfl, rfl⟩
    | x :: xs, y :: ys =>
      show opsOldLines (lcsDiff (fuel + 1) (x :: xs) (y :: ys)) = x :: xs
        ∧ opsNewLines (lcsDiff (fuel + 1) (x :: xs) (y :: ys)) = y :: ys
      unfold lcsDiff
      by_cases hxy : x = y
      · rw [if_pos hxy]
        have hrec := ih xs ys
        subst hxy
        unfold opsOldLines opsNewLines at hrec ⊢
        rw [List.filterMap_cons, List.filterMap_cons]
        simp only []
        rw [hrec.1, hrec.2]
        exact ⟨rfl, rfl⟩
      · rw [if_neg hxy]
        by_cases hc : editCost (DOp.del x :: lcsDiff fuel xs (y :: ys))
            ≤ editCost (DOp.ins y :: lcsDiff fuel (x :: xs) ys)
        · rw [if_pos hc]
          have hrec := ih xs (y :: ys)
          unfold opsOldLines opsNewLines at hrec ⊢
          rw [List.filterMap_cons, List.filterMap_cons]
          simp only []
          rw [hrec.1, hrec.2]
          exact ⟨rfl, rfl⟩
        · rw [if_neg hc]
          have hrec := ih (x :: xs) ys
          unfold opsOldLines opsNewLines at hrec ⊢
          rw [List.filterMap_cons, List.filterMap_cons]
          simp only []
          rw [hrec.1, hrec.2]
          exact ⟨rfl, rfl⟩

theorem toSegs_sound : ∀ (sc : List DOp),
    segsOldLines (toSegs sc) = opsOldLines sc ∧ segsNewLines (toSegs sc) = opsNewLines sc := by
  intro sc
  induction sc with
  | nil => exact ⟨rfl, rfl⟩
  | cons op rest ih =>
    obtain ⟨ih1, ih2⟩ := ih
    rcases op with s | s | s
    · rcases htr : toSegs rest with _ | ⟨seg, segs⟩
      · rw [htr] at ih1 ih2
        simp only [toSegs, htr, segsOldLines, segsNewLines, opsOldLines, opsNewLines,
          List.filterMap_cons] at ih1 ih2 ⊢
        simp [← ih1, ← ih2, segsOldLines, segsNewLines]
      · rcases seg with c | ops
        · rw [htr] at ih1 ih2
          simp only [toSegs, htr, segsOldLines, segsNewLines, opsOldLines, opsNewLines,
            List.filterMap_cons] at ih1 ih2 ⊢
          simp [← ih1, ← ih2, segsOldLines, segsNewLines]
        · rw [htr] at ih1 ih2
          simp only [toSegs, htr, segsOldLines, segsNewLines, opsOldLines, opsNewLines,
            List.filterMap_cons] at ih1 ih2 ⊢
          simp [← ih1, ← ih2, segsOldLines, segsNewLines]
    · rcases htr : toSegs rest with _ | ⟨seg, segs⟩
      · rw [htr] at ih1 ih2
        simp only [toSegs, htr, segsOldLines, segsNewLines, opsOldLines, opsNewLines,
          List.filterMap_cons] at ih1 ih2 ⊢
        simp [← ih1, ← ih2, segsOldLines, segsNewLines, opsOldLines, opsNewLines]
      · rcases seg with c | ops
        · rw [htr] at ih1 ih2
          simp only [toSegs, htr, segsOldLines, segsNewLines, opsOldLines, opsNewLines,
            List.filterMap_cons] at ih1 ih2 ⊢
          simp [← ih1, ← ih2, segsOldLines, segsNewLines, opsOldLines, opsNewLines]
        · rw [htr] at ih1 ih2
          simp only [toSegs, htr, segsOldLines, segsNewLines, opsOldLines, opsNewLines,
            List.filterMap_cons] at ih1 ih2 ⊢
          simp [← ih1, ← ih2, segsOldLines, segsNewLines, opsOldLines, opsNewLines]
    · rcases htr : toSegs rest with _ | ⟨seg, segs⟩
      · rw [htr] at ih1 ih2
        simp only [toSegs, htr, segsOldLines, segsNewLines, opsOldLines, opsNewLines,
          List.filterMap_cons] at ih1 ih2 ⊢
        simp [← ih1, ← ih2, segsOldLines, segsNewLines, opsOldLines, opsNewLines]
      · rcases seg with c | ops
        · rw [htr] at ih1 ih2
          simp only [toSegs, htr, segsOldLines, segsNewLines, opsOldLines, opsNewLines,
            List.filterMap_cons] at ih1 ih2 ⊢
          simp [← ih1, ← ih2, segsOldLines, segsNewLines, opsOldLines, opsNewLines]
        · rw [htr] at ih1 ih2
          simp only [toSegs, htr, segsOldLines, segsNewLines, opsOldLines, opsNewLines,
            List.filterMap_cons] at ih1 ih2 ⊢
          simp [← ih1, ← ih2, segsOldLines, segsNewLines, opsOldLines, opsNewLines]

/-! ## Marker-character lemmas -/

theorem jsStartsWith_dash_append (s : String) : jsStartsWith ("-" ++ s) "-" = true := by
  unfold jsStartsWith
  rw [show ("-" ++ s).toList = '-' :: s.toList from rfl,
    show ("-" : String).toList = ['-'] from rfl]
  simp [List.isPrefixOf]

theorem jsStartsWith_plus_dash (s : String) : jsStartsWith ("+" ++ s) "-" = false := by
  unfold jsStartsWith
  rw [show ("+" ++ s).toList = '+' :: s.toList from rfl,
    show ("-" : String).toList = ['-'] from rfl]
  simp [List.isPrefixOf]

theorem jsStartsWith_plus_plus (s : String) : jsStartsWith ("+" ++ s) "+" = true := by
  unfold jsStartsWith
  rw [show ("+" ++ s).toList = '+' :: s.toList from rfl,
    show ("+" : String).toList = ['+'] from rfl]
  simp [List.isPrefixOf]

theorem jsStartsWith_space_dash (s : String) : jsStartsWith (" " ++ s) "-" = false := by
  unfold jsStartsWith
  rw [show (" " ++ s).toList = ' ' :: s.toList from rfl,
    show ("-" : String).toList = ['-'] from rfl]
  simp [List.isPrefixOf]

theorem jsStartsWith_space_plus (s : String) : jsStartsWith (" " ++ s) "+" = false := by
  unfold jsStartsWith
  rw [show (" " ++ s).toList = ' ' :: s.toList from rfl,
    show ("+" : String).toList = ['+'] from rfl]
  simp [List.isPrefixOf]

theorem jsSubstr1_plus (s : String) : jsSubstr1 ("+" ++ s) = s := by
  unfold jsSubstr1
  rw [show ("+" ++ s).toList = '+' :: s.toList from rfl]
  simp

/-! ## Walk lemmas for generated hunk lines -/

theorem getD_append_length (l₁ l₂ : List String) (x : String) (d : String) :
    (l₁ ++ x :: l₂).getD l₁.length d = x := by
  induction l₁ with
  | nil => rfl
  | cons a l₁ ih =>
    show ((a :: (l₁ ++ x :: l₂)).getD (l₁.length + 1) d) = x
    rw [List.getD_cons_succ]
    exact ih

theorem drop_decomp (done rest : List String) (o : Nat) (h : done.length = o) :
    (done ++ rest).drop o = rest := by
  rw [← h]
  exact List.drop_left done rest

theorem copyRange_succ (lines : List String) (cur n : Nat) :
    copyRange lines cur (cur + (n + 1))
      = lines.getD cur "" :: copyRange lines (cur + 1) (cur + 1 + n) := by
  unfold copyRange
  rw [show cur + (n + 1) - cur = n + 1 by omega, show cur + 1 + n - (cur + 1) = n by omega]
  rw [List.range_succ_eq_map, List.map_cons, List.map_map]
  rw [Nat.add_zero]
  congr 1
  apply List.map_congr_left
  intro k _
  simp only [Function.comp_apply]
  congr 1
  omega

theorem annotateHunkLines_append (lines : List String) :
    ∀ (a b : List String) (cur : Nat),
      annotateHunkLines lines (a ++ b) cur
        = ((annotateHunkLines lines a cur).1
             ++ (annotateHunkLines lines b (annotateHunkLines lines a cur).2).1,
           (annotateHunkLines lines b (annotateHunkLines lines a cur).2).2) := by
  intro a
  induction a with
  | nil => intro b cur; rfl
  | cons l a ih =>
    intro b cur
    rcases h1 : jsStartsWith l "-" with _ | _
    · rcases h2 : jsStartsWith l "+" with _ | _
      · rw [List.cons_append, annotateHunkLines_ctx lines l (a ++ b) cur h1 h2,
          annotateHunkLines_ctx lines l a cur h1 h2, ih b (cur + 1)]
        simp
      · rw [List.cons_append, annotateHunkLines_add lines l (a ++ b) cur h1 h2,
          annotateHunkLines_add lines l a cur h1 h2, ih b cur]
        simp
    · rw [List.cons_append, annotateHunkLines_del lines l (a ++ b) cur h1,
        annotateHunkLines_del lines l a cur h1, ih b (cur + 1)]
      simp

theorem annotateHunkLines_renderCtx (lines : List String) :
    ∀ (d : List String) (p : Nat),
      annotateHunkLines lines (renderCtx d) p
        = ((copyRange lines p (p + d.length)).map .unchanged, p + d.length) := by
  intro d
  induction d with
  | nil =>
    intro p
    show annotateHunkLines lines [] p = _
    unfold copyRange
    simp [annotateHunkLines]
  | cons x d ih =>
    intro p
    show annotateHunkLines lines ((" " ++ x) :: renderCtx d) p = _
    rw [annotateHunkLines_ctx lines (" " ++ x) (renderCtx d) p
      (jsStartsWith_space_dash x) (jsStartsWith_space_plus x)]
    rw [ih (p + 1)]
    rw [show p + (x :: d).length = p + (d.length + 1) by simp]
    rw [copyRange_succ lines p d.length, List.map_cons]
    rw [show p + 1 + d.length = p + (d.length + 1) by omega]

theorem newSideLines_append (a b : List AnnotatedLine) :
    newSideLines (a ++ b) = newSideLines a ++ newSideLines b := List.filterMap_append a b _

theorem newSideLines_map_unchanged (xs : List String) :
    newSideLines (xs.map AnnotatedLine.unchanged) = xs := by
  unfold newSideLines
  rw [List.filterMap_map]
  have h : ((fun a => match a with
      | AnnotatedLine.unchanged s => some s
      | AnnotatedLine.added s => some s
      | AnnotatedLine.removed _ => none) ∘ AnnotatedLine.unchanged) = some := by
    funext s; rfl
  rw [h, List.filterMap_some]

theorem annotateHunkLines_renderOps (lines : List String) :
    ∀ (ops : List DOp) (done tailL : List String) (p : Nat),
      lines = done ++ opsOldLines ops ++ tailL → done.length = p →
      (annotateHunkLines lines (renderOps ops) p).2 = p + (opsOldLines ops).length
        ∧ newSideLines (annotateHunkLines lines (renderOps ops) p).1 = opsNewLines ops := by
  intro ops
  induction ops with
  | nil =>
    intro done tailL p _ _
    exact ⟨by simp [annotateHunkLines, renderOps, opsOldLines], rfl⟩
  | cons op ops ih =>
    intro done tailL p hdec hlen
    rcases op with s | s | s
    · -- keep s : rendered " " ++ s, consumes the original line (which equals s)
      have hold : opsOldLines (DOp.keep s :: ops) = s :: opsOldLines ops := by
        unfold opsOldLines
        rw [List.filterMap_cons]
      have hnew : opsNewLines (DOp.keep s :: ops) = s :: opsNewLines ops := by
        unfold opsNewLines
        rw [List.filterMap_cons]
      rw [hold] at hdec
      have hget : lines.getD p "" = s := by
        rw [hdec, ← hlen]
        rw [show done ++ (s :: opsOldLines ops) ++ tailL
            = done ++ s :: (opsOldLines ops ++ tailL) by simp]
        exact getD_append_length done _ s ""
      show (annotateHunkLines lines ((" " ++ s) :: renderOps ops) p).2 = _
        ∧ newSideLines (annotateHunkLines lines ((" " ++ s) :: renderOps ops) p).1 = _
      rw [annotateHunkLines_ctx lines (" " ++ s) (renderOps ops) p
        (jsStartsWith_space_dash s) (jsStartsWith_space_plus s)]
      have hih := ih (done ++ [s]) tailL (p + 1)
        (by rw [hdec]; simp) (by simp [hlen])
      constructor
      · rw [hih.1, hold]
        simp only [List.length_cons]
        omega
      · unfold newSideLines
        rw [List.filterMap_cons]
        simp only []
        unfold newSideLines at hih
        rw [hih.2, hnew, hget]
    · -- del s : rendered "-" ++ s, consumes the original line, not in new side
      have hold : opsOldLines (DOp.del s :: ops) = s :: opsOldLines ops := by
        unfold opsOldLines
        rw [List.filterMap_cons]
      have hnew : opsNewLines (DOp.del s :: ops) = opsNewLines ops := by
        unfold opsNewLines
        rw [List.filterMap_cons]
      rw [hold] at hdec
      show (annotateHunkLines lines (("-" ++ s) :: renderOps ops) p).2 = _
        ∧ newSideLines (annotateHunkLines lines (("-" ++ s) :: renderOps ops) p).1 = _
      rw [annotateHunkLines_del lines ("-" ++ s) (renderOps ops) p
        (jsStartsWith_dash_append s)]
      have hih := ih (done ++ [s]) tailL (p + 1)
        (by rw [hdec]; simp) (by simp [hlen])
      constructor
      · rw [hih.1, hold]
        simp only [List.length_cons]
        omega
      · unfold newSideLines
        rw [List.filterMap_cons]
        simp only []
        unfold newSideLines at hih
        rw [hih.2, hnew]
    · -- ins s : rendered "+" ++ s, no original line consumed, new-side line s
      have hold : opsOldLines (DOp.ins s :: ops) = opsOldLines ops := by
        unfold opsOldLines
        rw [List.filterMap_cons]
      have hnew : opsNewLines (DOp.ins s :: ops) = s :: opsNewLines ops := by
        unfold opsNewLines
        rw [List.filterMap_cons]
      rw [hold] at hdec
      show (annotateHunkLines lines (("+" ++ s) :: renderOps ops) p).2 = _
        ∧ newSideLines (annotateHunkLines lines (("+" ++ s) :: renderOps ops) p).1 = _
      rw [annotateHunkLines_add lines ("+" ++ s) (renderOps ops) p
        (jsStartsWith_plus_dash s) (jsStartsWith_plus_plus s)]
      have hih := ih done tailL p hdec hlen
      constructor
      · rw [hih.1, hold]
      · unfold newSideLines
        rw [List.filterMap_cons]
        simp only []
        unfold newSideLines at hih
        rw [hih.2, hnew, jsSubstr1_plus]

/-! ## Unfolding equations and slice utilities for the hunk builder -/

theorem buildHunks_scan_nil (o n : Nat) (prev : List String) :
    buildHunks (.scan o n prev) [] = [] := rfl

theorem buildHunks_scan_ctx (o n : Nat) (prev c : List String) (rest : List Seg) :
    buildHunks (.scan o n prev) (.ctx c :: rest)
      = buildHunks (.scan (o + c.length) (n + c.length) c) rest := rfl

theorem buildHunks_scan_chg (o n : Nat) (prev : List String) (ops : List DOp)
    (rest : List Seg) :
    buildHunks (.scan o n prev) (.chg ops :: rest)
      = buildHunks (.inHunk (renderCtx (takeLast2 prev) ++ renderOps ops)
          (o - (takeLast2 prev).length + 1) (n - (takeLast2 prev).length + 1)
          ((takeLast2 prev).length + (opsOldLines ops).length)
          ((takeLast2 prev).length + (opsNewLines ops).length)
          (o + (opsOldLines ops).length) (n + (opsNewLines ops).length)) rest := rfl

theorem buildHunks_inHunk_nil (hl : List String) (oS nS oldL newL o n : Nat) :
    buildHunks (.inHunk hl oS nS oldL newL o n) []
      = [⟨oS, oldL, nS, newL, hl⟩] := rfl

theorem buildHunks_inHunk_ctx_merge (hl : List String) (oS nS oldL newL o n : Nat)
    (c : List String) (rest : List Seg) (hcond : c.length ≤ 4 ∧ rest ≠ []) :
    buildHunks (.inHunk hl oS nS oldL newL o n) (.ctx c :: rest)
      = buildHunks (.inHunk (hl ++ renderCtx c) oS nS (oldL + c.length) (newL + c.length)
          (o + c.length) (n + c.length)) rest := by
  show (if c.length ≤ 4 ∧ rest ≠ [] then _ else _) = _
  rw [if_pos hcond]

theorem buildHunks_inHunk_ctx_close (hl : List String) (oS nS oldL newL o n : Nat)
    (c : List String) (rest : List Seg) (hcond : ¬ (c.length ≤ 4 ∧ rest ≠ [])) :
    buildHunks (.inHunk hl oS nS oldL newL o n) (.ctx c :: rest)
      = ⟨oS, oldL + min 2 c.length, nS, newL + min 2 c.length, hl ++ renderCtx (c.take 2)⟩
          :: buildHunks (.scan (o + c.length) (n + c.length) c) rest := by
  show (if c.length ≤ 4 ∧ rest ≠ [] then _ else _) = _
  rw [if_neg hcond]

theorem buildHunks_inHunk_chg (hl : List String) (oS nS oldL newL o n : Nat)
    (ops : List DOp) (rest : List Seg) :
    buildHunks (.inHunk hl oS nS oldL newL o n) (.chg ops :: rest)
      = buildHunks (.inHunk (hl ++ renderOps ops) oS nS
          (oldL + (opsOldLines ops).length) (newL + (opsNewLines ops).length)
          (o + (opsOldLines ops).length) (n + (opsNewLines ops).length)) rest := rfl

theorem takeLast2_length (l : List String) : (takeLast2 l).length = l.length - (l.length - 2) := by
  unfold takeLast2
  rw [List.length_drop]

theorem toNat_cast_succ_sub_one (sN : Nat) : (((sN + 1 : Nat) : Int) - 1).toNat = sN := by
  omega

/-- Join of adjacent slices. -/
theorem slice_join (l : List String) (a m b : Nat) (ham : a ≤ m) (hmb : m ≤ b) :
    (l.drop a).take (m - a) ++ (l.drop m).take (b - m) = (l.drop a).take (b - a) := by
  have hb : b - a = (m - a) + (b - m) := by omega
  rw [hb, List.take_add]
  congr 2
  rw [List.drop_drop]
  congr 1
  omega

/-- A middle slice of a decomposed list. -/
theorem slice_mid (done mid tailL : List String) (o : Nat) (h : done.length = o) :
    ((done ++ mid ++ tailL).drop o).take mid.length = mid := by
  rw [List.append_assoc, drop_decomp done (mid ++ tailL) o h,
    List.take_append_of_le_length le_rfl, List.take_length]

/-! ### The new-side projection of the built hunks

The master induction: annotating the hunks produced by the builder and
reading off the new side reproduces the segments' new lines, with the
untouched regions copied verbatim. -/

theorem annotateHunks_cons_lit (lines : List String) (cur : Nat) (sN : Nat)
    (oldL nS newL : Int) (hl : List String) (rest : List Hunk) :
    annotateHunks lines cur ((⟨((sN + 1 : Nat) : Int), oldL, nS, newL, hl⟩ : Hunk) :: rest)
      = (copyRange lines cur sN).map .unchanged
          ++ (annotateHunkLines lines hl (max cur sN)).1
          ++ annotateHunks lines (annotateHunkLines lines hl (max cur sN)).2 rest := by
  rw [annotateHunks_cons]
  rw [show ((⟨((sN + 1 : Nat) : Int), oldL, nS, newL, hl⟩ : Hunk).oldStart)
      = ((sN + 1 : Nat) : Int) from rfl]
  rw [show ((⟨((sN + 1 : Nat) : Int), oldL, nS, newL, hl⟩ : Hunk).lines) = hl from rfl]
  rw [toNat_cast_succ_sub_one]

theorem segsOldLines_nil : segsOldLines [] = [] := rfl

theorem segsNewLines_nil : segsNewLines [] = [] := rfl

theorem segsOldLines_ctx (c : List String) (rest : List Seg) :
    segsOldLines (.ctx c :: rest) = c ++ segsOldLines rest := rfl

theorem segsNewLines_ctx (c : List String) (rest : List Seg) :
    segsNewLines (.ctx c :: rest) = c ++ segsNewLines rest := rfl

theorem segsOldLines_chg (ops : List DOp) (rest : List Seg) :
    segsOldLines (.chg ops :: rest) = opsOldLines ops ++ segsOldLines rest := rfl

theorem segsNewLines_chg (ops : List DOp) (rest : List Seg) :
    segsNewLines (.chg ops :: rest) = opsNewLines ops ++ segsNewLines rest := rfl

theorem copyRange_decomp (lines done mid tailL : List String) (o : Nat)
    (hdec : lines = done ++ mid ++ tailL) (hlen : done.length = o) :
    copyRange lines o (o + mid.length) = mid := by
  have hle : o + mid.length ≤ lines.length := by
    rw [hdec]
    simp [← hlen]
  rw [copyRange_spec lines o (o + mid.length) hle,
    show o + mid.length - o = mid.length by omega, hdec]
  exact slice_mid done mid tailL o hlen

theorem buildHunks_newSide (lines trail : List String) :
    ∀ (segs : List Seg),
      (∀ (o n : Nat) (prev : List String) (cur : Nat) (done : List String),
          lines = done ++ segsOldLines segs ++ trail → done.length = o → cur ≤ o →
          (∀ ops rest, segs = Seg.chg ops :: rest → cur + (takeLast2 prev).length ≤ o) →
          newSideLines (annotateHunks lines cur (buildHunks (.scan o n prev) segs))
            = (lines.drop cur).take (o - cur) ++ segsNewLines segs ++ trail)
      ∧ (∀ (hl : List String) (sN nS oldL newL n o cur : Nat) (done : List String),
          lines = done ++ segsOldLines segs ++ trail → done.length = o → cur ≤ sN →
          (annotateHunkLines lines hl sN).2 = o →
          newSideLines (annotateHunks lines cur
              (buildHunks (.inHunk hl (sN + 1) nS oldL newL o n) segs))
            = (lines.drop cur).take (sN - cur)
                ++ newSideLines (annotateHunkLines lines hl sN).1
                ++ segsNewLines segs ++ trail) := by
  intro segs
  induction segs with
  | nil =>
    constructor
    · intro o n prev cur done hdec hlen hcur _
      rw [buildHunks_scan_nil, annotateHunks_nil, copyRange_to_end,
        newSideLines_map_unchanged, segsNewLines_nil, List.append_nil]
      have hlines : lines = done ++ trail := by simpa using hdec
      have hdropo : lines.drop o = trail := by
        rw [hlines]
        exact drop_decomp done trail o hlen
      calc lines.drop cur
          = (lines.drop cur).take (o - cur) ++ (lines.drop cur).drop (o - cur) :=
            (List.take_append_drop _ _).symm
        _ = (lines.drop cur).take (o - cur) ++ lines.drop o := by
            rw [List.drop_drop]
            congr 2
            omega
        _ = (lines.drop cur).take (o - cur) ++ trail := by rw [hdropo]
    · intro hl sN nS oldL newL n o cur done hdec hlen hcur hwalk
      rw [buildHunks_inHunk_nil, annotateHunks_cons_lit]
      have hmax : max cur sN = sN := by omega
      rw [hmax, hwalk, annotateHunks_nil, copyRange_to_end]
      rw [newSideLines_append, newSideLines_append, newSideLines_map_unchanged,
        newSideLines_map_unchanged]
      have hlines : lines = done ++ trail := by simpa using hdec
      have hdropo : lines.drop o = trail := by
        rw [hlines]
        exact drop_decomp done trail o hlen
      have hSle : sN ≤ o := by
        have hadv := annotateHunkLines_advance lines hl sN
        omega
      have hole : o ≤ lines.length := by
        rw [hlines, List.length_append]
        omega
      rw [copyRange_spec lines cur sN (by omega), hdropo, segsNewLines_nil, List.append_nil]
  | cons seg rest ih =>
    obtain ⟨ihS, ihH⟩ := ih
    rcases seg with c | ops
    · -- ctx segment
      constructor
      · intro o n prev cur done hdec hlen hcur _
        rw [buildHunks_scan_ctx]
        rw [segsOldLines_ctx] at hdec
        have hdec2 : lines = done ++ c ++ (segsOldLines rest ++ trail) := by
          rw [hdec]
          simp [List.append_assoc]
        have hdec' : lines = (done ++ c) ++ segsOldLines rest ++ trail := by
          rw [hdec2]
          simp [List.append_assoc]
        have hIH := ihS (o + c.length) (n + c.length) c cur (done ++ c) hdec'
          (by simp [hlen]) (by omega)
          (by
            intro ops' rest' _
            have h2 := takeLast2_length c
            omega)
        rw [hIH, segsNewLines_ctx]
        have hslice : (lines.drop o).take c.length = c := by
          rw [hdec2]
          exact slice_mid done c (segsOldLines rest ++ trail) o hlen
        have hjoin := slice_join lines cur o (o + c.length) hcur (by omega)
        rw [show o + c.length - o = c.length by omega, hslice] at hjoin
        rw [← hjoin]
        simp [List.append_assoc]
      · intro hl sN nS oldL newL n o cur done hdec hlen hcur hwalk
        rw [segsOldLines_ctx] at hdec
        have hdec2 : lines = done ++ c ++ (segsOldLines rest ++ trail) := by
          rw [hdec]
          simp [List.append_assoc]
        have hdec' : lines = (done ++ c) ++ segsOldLines rest ++ trail := by
          rw [hdec2]
          simp [List.append_assoc]
        have hcopy : copyRange lines o (o + c.length) = c :=
          copyRange_decomp lines done c (segsOldLines rest ++ trail) o hdec2 hlen
        have hwalk_app := annotateHunkLines_append lines hl (renderCtx c) sN
        by_cases hcond : c.length ≤ 4 ∧ rest ≠ []
        · rw [buildHunks_inHunk_ctx_merge _ _ _ _ _ _ _ _ _ hcond]
          have hwend : (annotateHunkLines lines (hl ++ renderCtx c) sN).2 = o + c.length := by
            simp [hwalk_app, annotateHunkLines_renderCtx, hwalk]
          have hIH := ihH (hl ++ renderCtx c) sN nS (oldL + c.length) (newL + c.length)
            (n + c.length) (o + c.length) cur (done ++ c) hdec' (by simp [hlen]) hcur hwend
          rw [hIH, segsNewLines_ctx]
          have hnew : newSideLines (annotateHunkLines lines (hl ++ renderCtx c) sN).1
              = newSideLines (annotateHunkLines lines hl sN).1 ++ c := by
            simp [hwalk_app, newSideLines_append, annotateHunkLines_renderCtx,
              newSideLines_map_unchanged, hwalk, hcopy]
          rw [hnew]
          simp [List.append_assoc]
        · rw [buildHunks_inHunk_ctx_close _ _ _ _ _ _ _ _ _ hcond]
          -- the closing hunk has lines hl ++ renderCtx (c.take 2)
          have htk : (c.take 2).length = min 2 c.length := by
            rw [List.length_take]
          have hcopy2 : copyRange lines o (o + min 2 c.length) = c.take 2 := by
            have := copyRange_decomp lines done (c.take 2)
              (c.drop 2 ++ (segsOldLines rest ++ trail)) o
              (by
                rw [hdec2]
                simp [List.append_assoc]
                conv_rhs => rw [← List.append_assoc, List.take_append_drop])
              hlen
            rw [htk] at this
            exact this
          have hwend2 : (annotateHunkLines lines (hl ++ renderCtx (c.take 2)) sN).2
              = o + min 2 c.length := by
            simp [annotateHunkLines_append, annotateHunkLines_renderCtx, hwalk, htk]
          have hnew2 : newSideLines (annotateHunkLines lines (hl ++ renderCtx (c.take 2)) sN).1
              = newSideLines (annotateHunkLines lines hl sN).1 ++ c.take 2 := by
            have haux : copyRange lines (annotateHunkLines lines hl sN).2
                ((annotateHunkLines lines hl sN).2 + min 2 c.length) = c.take 2 := by
              rw [hwalk]
              exact hcopy2
            simp [annotateHunkLines_append, newSideLines_append, annotateHunkLines_renderCtx,
              newSideLines_map_unchanged, haux]
            rw [← List.map_take, newSideLines_map_unchanged]
          -- annotate the cons of the closing hunk
          rw [annotateHunks_cons_lit]
          have hmax : max cur sN = sN := by omega
          rw [hmax, hwend2]
          -- scan continuation
          have hdecS : lines = (done ++ c) ++ segsOldLines rest ++ trail := hdec'
          have hIHs := ihS (o + c.length) (n + c.length) c (o + min 2 c.length) (done ++ c)
            hdecS (by simp [hlen]) (by omega)
            (by
              intro ops' rest' hr
              have h2 := takeLast2_length c
              have hc5 : ¬ (c.length ≤ 4) ∨ rest = [] := by tauto
              rcases hc5 with hc5 | hc5
              · omega
              · rw [hc5] at hr
                cases hr)
          rw [newSideLines_append, newSideLines_append, newSideLines_map_unchanged, hnew2,
            hIHs, segsNewLines_ctx]
          -- slices: (drop (o + min2)).take (o + |c| - (o + min2)) = c.drop 2
          have hdropslice : (lines.drop (o + min 2 c.length)).take
              (o + c.length - (o + min 2 c.length)) = c.drop 2 := by
            have hdo : lines.drop o = c ++ (segsOldLines rest ++ trail) := by
              rw [hdec2, List.append_assoc]
              exact drop_decomp done _ o hlen
            have : lines.drop (o + min 2 c.length)
                = c.drop (min 2 c.length) ++ (segsOldLines rest ++ trail) := by
              rw [← List.drop_drop, hdo]
              exact List.drop_append_of_le_length (by omega)
            rw [this, show o + c.length - (o + min 2 c.length) = c.length - min 2 c.length
              by omega]
            rw [List.take_append_of_le_length (by rw [List.length_drop])]
            have hdd : c.drop (min 2 c.length) = c.drop 2 := by
              rcases le_or_lt 2 c.length with h2 | h2
              · rw [show min 2 c.length = 2 by omega]
              · rw [show min 2 c.length = c.length by omega]
                rw [List.drop_length, List.drop_eq_nil_of_le (by omega)]
            rw [hdd]
            apply List.take_of_length_le
            rw [List.length_drop]
            omega
          rw [copyRange_spec lines cur sN (by
            have hadv := annotateHunkLines_advance lines hl sN
            have : o ≤ lines.length := by
              rw [hdec2]
              simp [← hlen]
            omega)]
          rw [hdropslice]
          -- final assembly: take2 ++ drop2 = c after right-association
          have hc2 : c.take 2 ++ (c.drop 2 ++ (segsNewLines rest ++ trail))
              = c ++ (segsNewLines rest ++ trail) := by
            rw [← List.append_assoc, List.take_append_drop]
          simp [List.append_assoc, hc2]
    · -- chg segment
      constructor
      · intro o n prev cur done hdec hlen hcur hlead
        rw [buildHunks_scan_chg]
        rw [segsOldLines_chg] at hdec
        have hdec2 : lines = done ++ opsOldLines ops ++ (segsOldLines rest ++ trail) := by
          rw [hdec]
          simp [List.append_assoc]
        have hdec' : lines = (done ++ opsOldLines ops) ++ segsOldLines rest ++ trail := by
          rw [hdec2]
          simp [List.append_assoc]
        have hlL := hlead ops rest rfl
        set lead := takeLast2 prev with hlead_def
        set sN := o - lead.length with hsN_def
        have hsNlead : sN + lead.length = o := by omega
        have hops := annotateHunkLines_renderOps lines ops done
          (segsOldLines rest ++ trail) o hdec2 hlen
        have hwend : (annotateHunkLines lines (renderCtx lead ++ renderOps ops) sN).2
            = o + (opsOldLines ops).length := by
          have h1 := annotateHunkLines_append lines (renderCtx lead) (renderOps ops) sN
          simp [h1, annotateHunkLines_renderCtx, hsNlead, hops.1]
        have hIH := ihH (renderCtx lead ++ renderOps ops) sN (n - lead.length + 1)
          (lead.length + (opsOldLines ops).length) (lead.length + (opsNewLines ops).length)
          (n + (opsNewLines ops).length) (o + (opsOldLines ops).length) cur
          (done ++ opsOldLines ops) hdec' (by simp [hlen]) (by omega) hwend
        rw [hIH, segsNewLines_chg]
        have hnew : newSideLines (annotateHunkLines lines
              (renderCtx lead ++ renderOps ops) sN).1
            = copyRange lines sN (sN + lead.length) ++ opsNewLines ops := by
          have h1 := annotateHunkLines_append lines (renderCtx lead) (renderOps ops) sN
          simp [h1, newSideLines_append, annotateHunkLines_renderCtx,
            newSideLines_map_unchanged, hsNlead, hops.2]
        rw [hnew]
        have hole : o ≤ lines.length := by
          rw [hdec2]
          simp [← hlen]
        have hcr : copyRange lines sN (sN + lead.length) = (lines.drop sN).take (o - sN) := by
          rw [copyRange_spec lines sN (sN + lead.length) (by omega)]
          congr 1
          omega
        rw [hcr]
        have hjoin := slice_join lines cur sN o (by omega) (by omega)
        rw [← List.append_assoc ((lines.drop cur).take (sN - cur)) _ _]
        rw [show (lines.drop cur).take (sN - cur) ++ (lines.drop sN).take (o - sN)
            = (lines.drop cur).take (o - cur) from hjoin]
        simp [List.append_assoc]
      · intro hl sN nS oldL newL n o cur done hdec hlen hcur hwalk
        rw [buildHunks_inHunk_chg]
        rw [segsOldLines_chg] at hdec
        have hdec2 : lines = done ++ opsOldLines ops ++ (segsOldLines rest ++ trail) := by
          rw [hdec]
          simp [List.append_assoc]
        have hdec' : lines = (done ++ opsOldLines ops) ++ segsOldLines rest ++ trail := by
          rw [hdec2]
          simp [List.append_assoc]
        have hops := annotateHunkLines_renderOps lines ops done
          (segsOldLines rest ++ trail) o hdec2 hlen
        have hwend : (annotateHunkLines lines (hl ++ renderOps ops) sN).2
            = o + (opsOldLines ops).length := by
          have h1 := annotateHunkLines_append lines hl (renderOps ops) sN
          simp [h1, hwalk, hops.1]
        have hIH := ihH (hl ++ renderOps ops) sN nS (oldL + (opsOldLines ops).length)
          (newL + (opsNewLines ops).length) (n + (opsNewLines ops).length)
          (o + (opsOldLines ops).length) cur (done ++ opsOldLines ops) hdec'
          (by simp [hlen]) hcur hwend
        rw [hIH, segsNewLines_chg]
        have hnew : newSideLines (annotateHunkLines lines (hl ++ renderOps ops) sN).1
            = newSideLines (annotateHunkLines lines hl sN).1 ++ opsNewLines ops := by
          have h1 := annotateHunkLines_append lines hl (renderOps ops) sN
          simp [h1, newSideLines_append, hwalk, hops.2]
        rw [hnew]
        simp [List.append_assoc]

/-! ### Split/join roundtrips

`applySourceView` re-splits the text assembled by the projection, so we
relate `jsSplitNL` and `joinNL` exactly, at the character level. -/

theorem string_eq_of_toList {a b : String} (h : a.toList = b.toList) : a = b := by
  cases a
  cases b
  simpa [String.toList] using congrArg String.mk h

/-- Char-level `join('\n')`. -/
def joinNLL : List (List Char) → List Char
  | [] => []
  | [g] => g
  | g :: g' :: gs => g ++ '\n' :: joinNLL (g' :: gs)

theorem joinNLL_cons_cons (g g' : List Char) (gs : List (List Char)) :
    joinNLL (g :: g' :: gs) = g ++ '\n' :: joinNLL (g' :: gs) := rfl

theorem splitNLL_nil : splitNLL [] = [[]] := rfl

theorem splitNLL_cons_nl (rest : List Char) :
    splitNLL ('\n' :: rest) = [] :: splitNLL rest := by
  conv_lhs => unfold splitNLL
  rw [if_pos rfl]

theorem splitNLL_ne_nil : ∀ (cs : List Char), splitNLL cs ≠ [] := by
  intro cs
  match cs with
  | [] => simp [splitNLL]
  | c :: rest =>
    show splitNLL (c :: rest) ≠ []
    unfold splitNLL
    by_cases hc : c = '\n'
    · rw [if_pos hc]
      simp
    · rw [if_neg hc]
      rcases h : splitNLL rest with _ | ⟨g, gs⟩
      · simp
      · simp

theorem splitNLL_cons_other (c : Char) (rest : List Char) (hc : c ≠ '\n')
    (g : List Char) (gs : List (List Char)) (h : splitNLL rest = g :: gs) :
    splitNLL (c :: rest) = (c :: g) :: gs := by
  conv_lhs => unfold splitNLL
  rw [if_neg hc, h]

theorem joinNL_toList : ∀ (ss : List String),
    (joinNL ss).toList = joinNLL (ss.map String.toList) := by
  intro ss
  match ss with
  | [] => rfl
  | [s] => rfl
  | s :: s' :: rest =>
    show (s ++ "\n" ++ joinNL (s' :: rest)).toList
      = joinNLL (s.toList :: (s' :: rest).map String.toList)
    rw [List.map_cons, joinNLL_cons_cons, toList_append, toList_append, joinNL_toList (s' :: rest)]
    rw [show ("\n" : String).toList = ['\n'] from rfl]
    simp

theorem joinNLL_splitNLL : ∀ (cs : List Char), joinNLL (splitNLL cs) = cs := by
  intro cs
  induction cs with
  | nil => rfl
  | cons c rest ih =>
    by_cases hc : c = '\n'
    · subst hc
      rw [splitNLL_cons_nl]
      rcases h : splitNLL rest with _ | ⟨g, gs⟩
      · exact absurd h (splitNLL_ne_nil rest)
      · rw [joinNLL_cons_cons, List.nil_append, ← h, ih]
    · rcases h : splitNLL rest with _ | ⟨g, gs⟩
      · exact absurd h (splitNLL_ne_nil rest)
      · rw [splitNLL_cons_other c rest hc g gs h]
        rcases gs with _ | ⟨g', gs'⟩
        · show c :: g = c :: rest
          rw [h] at ih
          rw [show joinNLL [g] = g from rfl] at ih
          rw [ih]
        · rw [joinNLL_cons_cons, List.cons_append]
          rw [h, joinNLL_cons_cons] at ih
          rw [ih]

/-- Joining the split of a text gives the text back. -/
theorem joinNL_jsSplitNL (t : String) : joinNL (jsSplitNL t) = t := by
  apply string_eq_of_toList
  rw [jsSplitNL, joinNL_toList, List.map_map]
  have : (String.toList ∘ String.mk) = id := by
    funext l
    rfl
  rw [this, List.map_id, joinNLL_splitNLL]

theorem splitNLL_of_no_nl : ∀ (cs : List Char), '\n' ∉ cs → splitNLL cs = [cs] := by
  intro cs
  induction cs with
  | nil => intro _; rfl
  | cons c rest ih =>
    intro hnl
    have hc : c ≠ '\n' := fun h => hnl (h ▸ List.mem_cons_self c rest)
    have hrest : '\n' ∉ rest := fun h => hnl (List.mem_cons_of_mem c h)
    exact splitNLL_cons_other c rest hc rest [] (ih hrest)

theorem splitNLL_append_cons : ∀ (g cs : List Char), '\n' ∉ g →
    splitNLL (g ++ '\n' :: cs) = g :: splitNLL cs := by
  intro g
  induction g with
  | nil =>
    intro cs _
    rw [List.nil_append, splitNLL_cons_nl]
  | cons c g ih =>
    intro cs hnl
    have hc : c ≠ '\n' := fun h => hnl (h ▸ List.mem_cons_self c g)
    have hg : '\n' ∉ g := fun h => hnl (List.mem_cons_of_mem c h)
    rw [List.cons_append]
    rcases hrec : splitNLL (g ++ '\n' :: cs) with _ | ⟨g0, gs0⟩
    · exact absurd hrec (splitNLL_ne_nil _)
    · rw [ih cs hg] at hrec
      injection hrec with h1 h2
      subst h1
      subst h2
      exact splitNLL_cons_other c _ hc g (splitNLL cs) (ih cs hg)

theorem splitNLL_joinNLL : ∀ (gs : List (List Char)), gs ≠ [] →
    (∀ g ∈ gs, '\n' ∉ g) → splitNLL (joinNLL gs) = gs := by
  intro gs
  match gs with
  | [] => intro h _; exact absurd rfl h
  | [g] =>
    intro _ hnl
    show splitNLL g = [g]
    exact splitNLL_of_no_nl g (hnl g (List.mem_singleton.mpr rfl))
  | g :: g' :: rest =>
    intro _ hnl
    rw [joinNLL_cons_cons,
      splitNLL_append_cons g _ (hnl g (List.mem_cons_self g _)),
      splitNLL_joinNLL (g' :: rest) (by simp)
        (fun x hx => hnl x (List.mem_cons_of_mem g hx))]

/-- Splitting a join of newline-free components gives the components
back. -/
theorem jsSplitNL_joinNL (ss : List String) (hne : ss ≠ [])
    (hnl : ∀ s ∈ ss, '\n' ∉ s.toList) : jsSplitNL (joinNL ss) = ss := by
  rw [jsSplitNL, joinNL_toList,
    splitNLL_joinNLL (ss.map String.toList) (by simpa using hne)
      (by
        intro g hg
        obtain ⟨s, hs, rfl⟩ := List.mem_map.mp hg
        exact hnl s hs),
    List.map_map]
  have : (String.mk ∘ String.toList) = id := by
    funext s
    exact mk_toList s
  rw [this, List.map_id]

/-- Every component of a split is newline-free. -/
theorem splitNLL_no_nl : ∀ (cs : List Char), ∀ g ∈ splitNLL cs, '\n' ∉ g := by
  intro cs
  induction cs with
  | nil =>
    intro g hg
    rw [splitNLL_nil, List.mem_singleton] at hg
    subst hg
    simp
  | cons c rest ih =>
    intro g hg
    by_cases hc : c = '\n'
    · subst hc
      rw [splitNLL_cons_nl, List.mem_cons] at hg
      rcases hg with rfl | hg
      · simp
      · exact ih g hg
    · rcases h : splitNLL rest with _ | ⟨g0, gs⟩
      · exact absurd h (splitNLL_ne_nil rest)
      · rw [splitNLL_cons_other c rest hc g0 gs h, List.mem_cons] at hg
        rcases hg with rfl | hg
        · intro hmem
          rcases List.mem_cons.mp hmem with rfl | hmem
          · exact hc rfl
          · exact ih g0 (h ▸ List.mem_cons_self g0 gs) hmem
        · exact ih g (h ▸ List.mem_cons_of_mem g0 hg)

theorem jsSplitNL_no_nl (t : String) : ∀ s ∈ jsSplitNL t, '\n' ∉ s.toList := by
  intro s hs
  obtain ⟨g, hg, rfl⟩ := List.mem_map.mp hs
  simpa using splitNLL_no_nl t.toList g hg

theorem jsSplitNL_ne_nil (t : String) : jsSplitNL t ≠ [] := by
  rw [jsSplitNL]
  simpa using splitNLL_ne_nil t.toList

/-! ### Trailing-newline normalization -/

/-- The normalization both arguments of `generateDiff` undergo
(Composer.js 713-714): ensure the text ends with a newline. -/
def normalizeNL (t : String) : String :=
  if jsEndsWith t "\n" then t else t ++ "\n"

theorem generateDiff_eq (c p : String) :
    generateDiff c p = cleanDiffOutput (structuredDiff (normalizeNL c) (normalizeNL p)) := rfl

theorem splitNLL_append_nl : ∀ (cs : List Char),
    splitNLL (cs ++ ['\n']) = splitNLL cs ++ [[]] := by
  intro cs
  induction cs with
  | nil => decide
  | cons c rest ih =>
    by_cases hc : c = '\n'
    · subst hc
      rw [List.cons_append, splitNLL_cons_nl, splitNLL_cons_nl, ih, List.cons_append]
    · rcases h : splitNLL rest with _ | ⟨g, gs⟩
      · exact absurd h (splitNLL_ne_nil rest)
      · rw [h] at ih
        rw [List.cons_append,
          splitNLL_cons_other c _ hc g (gs ++ [[]]) (by rw [ih, List.cons_append]),
          splitNLL_cons_other c rest hc g gs h, List.cons_append]

theorem jsSplitNL_append_nl (t : String) :
    jsSplitNL (t ++ "\n") = jsSplitNL t ++ [""] := by
  rw [jsSplitNL, jsSplitNL, toList_append,
    show ("\n" : String).toList = ['\n'] from rfl, splitNLL_append_nl, List.map_append]
  rfl

theorem jsEndsWith_nl_decomp (t : String) (h : jsEndsWith t "\n" = true) :
    ∃ u : String, t = u ++ "\n" := by
  unfold jsEndsWith at h
  rw [show ("\n" : String).toList = ['\n'] from rfl] at h
  obtain ⟨cs, hcs⟩ := (List.isSuffixOf_iff_suffix.mp h)
  refine ⟨String.mk cs, string_eq_of_toList ?_⟩
  rw [toList_append, toList_mk, show ("\n" : String).toList = ['\n'] from rfl]
  exact hcs.symm

theorem jsSplitNL_of_endsWith (t : String) (h : jsEndsWith t "\n" = true) :
    jsSplitNL t = diffLinesOf t ++ [""] := by
  obtain ⟨u, rfl⟩ := jsEndsWith_nl_decomp t h
  rw [diffLinesOf, jsSplitNL_append_nl, List.dropLast_concat]

theorem normalizeNL_endsWith (t : String) : jsEndsWith (normalizeNL t) "\n" = true := by
  rw [normalizeNL]
  by_cases h : jsEndsWith t "\n" = true
  · rw [if_pos h]
    exact h
  · rw [if_neg h]
    unfold jsEndsWith
    rw [toList_append, show ("\n" : String).toList = ['\n'] from rfl]
    exact List.isSuffixOf_iff_suffix.mpr ⟨t.toList, rfl⟩

theorem diffLinesOf_normalize_ne_nil (t : String) : diffLinesOf (normalizeNL t) ≠ [] := by
  intro hnil
  obtain ⟨u, hu⟩ := jsEndsWith_nl_decomp (normalizeNL t) (normalizeNL_endsWith t)
  have h := jsSplitNL_of_endsWith (normalizeNL t) (normalizeNL_endsWith t)
  rw [hnil, List.nil_append, hu, jsSplitNL_append_nl] at h
  have hlen : (jsSplitNL u).length = 0 := by
    have := congrArg List.length h
    simpa using this
  exact jsSplitNL_ne_nil u (List.length_eq_zero.mp hlen)

/-! ### The shape of built hunk lines

Every line of every hunk produced by `buildHunks` is a one-character
unified-diff marker followed by a line of one of the two diffed texts.
This drives the `cleanDiffOutput` no-op argument. -/

/-- `l` is a marker character followed by a content line satisfying
`P`. -/
def markedLine (P : String → Prop) (l : String) : Prop :=
  ∃ s, P s ∧ (l = " " ++ s ∨ l = "-" ++ s ∨ l = "+" ++ s)

theorem renderCtx_marked (P : String → Prop) (c : List String) (hc : ∀ s ∈ c, P s) :
    ∀ l ∈ renderCtx c, markedLine P l := by
  intro l hl
  obtain ⟨s, hs, rfl⟩ := List.mem_map.mp hl
  exact ⟨s, hc s hs, Or.inl rfl⟩

theorem renderOps_marked (P : String → Prop) (ops : List DOp)
    (ho : ∀ s ∈ opsOldLines ops, P s) (hn : ∀ s ∈ opsNewLines ops, P s) :
    ∀ l ∈ renderOps ops, markedLine P l := by
  intro l hl
  obtain ⟨op, hop, rfl⟩ := List.mem_map.mp hl
  rcases op with s | s | s
  · exact ⟨s, ho s (List.mem_filterMap.mpr ⟨.keep s, hop, rfl⟩), Or.inl rfl⟩
  · exact ⟨s, ho s (List.mem_filterMap.mpr ⟨.del s, hop, rfl⟩), Or.inr (Or.inl rfl)⟩
  · exact ⟨s, hn s (List.mem_filterMap.mpr ⟨.ins s, hop, rfl⟩), Or.inr (Or.inr rfl)⟩

theorem buildHunks_marked (P : String → Prop) : ∀ (segs : List Seg),
    (∀ s ∈ segsOldLines segs, P s) → (∀ s ∈ segsNewLines segs, P s) →
    (∀ (o n : Nat) (prev : List String), (∀ s ∈ prev, P s) →
      ∀ h ∈ buildHunks (.scan o n prev) segs, ∀ l ∈ h.lines, markedLine P l)
    ∧ (∀ (hl : List String) (oS nS oldL newL o n : Nat), (∀ l ∈ hl, markedLine P l) →
      ∀ h ∈ buildHunks (.inHunk hl oS nS oldL newL o n) segs, ∀ l ∈ h.lines,
        markedLine P l) := by
  intro segs
  induction segs with
  | nil =>
    intro _ _
    constructor
    · intro o n prev _ h hh
      rw [buildHunks_scan_nil] at hh
      exact absurd hh (List.not_mem_nil h)
    · intro hl oS nS oldL newL o n hhl h hh
      rw [buildHunks_inHunk_nil, List.mem_singleton] at hh
      subst hh
      exact hhl
  | cons seg rest ih =>
    rcases seg with c | ops
    · intro hold hnew
      rw [segsOldLines_ctx] at hold
      rw [segsNewLines_ctx] at hnew
      have hc : ∀ s ∈ c, P s := fun s hs => hold s (List.mem_append_left _ hs)
      have hor : ∀ s ∈ segsOldLines rest, P s :=
        fun s hs => hold s (List.mem_append_right _ hs)
      have hnr : ∀ s ∈ segsNewLines rest, P s :=
        fun s hs => hnew s (List.mem_append_right _ hs)
      obtain ⟨ihS, ihH⟩ := ih hor hnr
      constructor
      · intro o n prev _ h hh
        rw [buildHunks_scan_ctx] at hh
        exact ihS _ _ c hc h hh
      · intro hl oS nS oldL newL o n hhl h hh
        by_cases hcond : c.length ≤ 4 ∧ rest ≠ []
        · rw [buildHunks_inHunk_ctx_merge _ _ _ _ _ _ _ _ _ hcond] at hh
          refine ihH _ _ _ _ _ _ _ ?_ h hh
          intro l hlm
          rcases List.mem_append.mp hlm with hlm | hlm
          · exact hhl l hlm
          · exact renderCtx_marked P c hc l hlm
        · rw [buildHunks_inHunk_ctx_close _ _ _ _ _ _ _ _ _ hcond, List.mem_cons] at hh
          rcases hh with rfl | hh
          · intro l hlm
            rcases List.mem_append.mp hlm with hlm | hlm
            · exact hhl l hlm
            · exact renderCtx_marked P (c.take 2)
                (fun s hs => hc s (List.take_subset 2 c hs)) l hlm
          · exact ihS _ _ c hc h hh
    · intro hold hnew
      rw [segsOldLines_chg] at hold
      rw [segsNewLines_chg] at hnew
      have hoo : ∀ s ∈ opsOldLines ops, P s := fun s hs => hold s (List.mem_append_left _ hs)
      have hno : ∀ s ∈ opsNewLines ops, P s := fun s hs => hnew s (List.mem_append_left _ hs)
      have hor : ∀ s ∈ segsOldLines rest, P s :=
        fun s hs => hold s (List.mem_append_right _ hs)
      have hnr : ∀ s ∈ segsNewLines rest, P s :=
        fun s hs => hnew s (List.mem_append_right _ hs)
      obtain ⟨ihS, ihH⟩ := ih hor hnr
      constructor
      · intro o n prev hprev h hh
        rw [buildHunks_scan_chg] at hh
        refine ihH _ _ _ _ _ _ _ ?_ h hh
        intro l hlm
        rcases List.mem_append.mp hlm with hlm | hlm
        · exact renderCtx_marked P (takeLast2 prev)
            (fun s hs => hprev s (List.drop_subset _ prev hs)) l hlm
        · exact renderOps_marked P ops hoo hno l hlm
      · intro hl oS nS oldL newL o n hhl h hh
        rw [buildHunks_inHunk_chg] at hh
        refine ihH _ _ _ _ _ _ _ ?_ h hh
        intro l hlm
        rcases List.mem_append.mp hlm with hlm | hlm
        · exact hhl l hlm
        · exact renderOps_marked P ops hoo hno l hlm

/-! ### `cleanDiffOutput` is a no-op on artifact-free diffs -/

/-- A content line carrying none of the artifacts `cleanDiffOutput`
reacts to. -/
def artifactFree (s : String) : Prop :=
  jsIncludes s fenceMarker = false ∧ jsIncludes s iveMarker = false
    ∧ jsIncludes s maintainedMarker = false ∧ jsIncludes s noNewlineMarker = false

theorem jsIncludesL_cons_of_head_ne (pat : List Char) (m : Char) (cs : List Char)
    (hh : pat.head? ≠ some m) (hne : pat ≠ []) :
    jsIncludesL pat (m :: cs) = jsIncludesL pat cs := by
  rcases pat with _ | ⟨p0, pr⟩
  · exact absurd rfl hne
  · have hne2 : (p0 == m) = false := by
      rcases hpm : p0 == m
      · rfl
      · have hpe : p0 = m := eq_of_beq hpm
        exact absurd (by rw [List.head?_cons, hpe]) hh
    conv_lhs => unfold jsIncludesL
    have hpre : (p0 :: pr).isPrefixOf (m :: cs) = false := by
      show (p0 == m && pr.isPrefixOf cs) = false
      rw [hne2, Bool.false_and]
    rw [hpre, Bool.false_or]

theorem jsIncludes_marker_cons (m s pat : String) (mc : Char)
    (hm : m.toList = [mc]) (hh : pat.toList.head? ≠ some mc) (hne : pat.toList ≠ []) :
    jsIncludes (m ++ s) pat = jsIncludes s pat := by
  unfold jsIncludes
  rw [toList_append, hm, List.singleton_append]
  exact jsIncludesL_cons_of_head_ne _ _ _ hh hne

/-- Prefixing a single marker character whose value heads none of the
artifact patterns preserves artifact-freedom. -/
theorem artifactFree_marker (m s : String) (mc : Char) (hm : m.toList = [mc])
    (h1 : fenceMarker.toList.head? ≠ some mc) (h2 : iveMarker.toList.head? ≠ some mc)
    (h3 : maintainedMarker.toList.head? ≠ some mc)
    (h4 : noNewlineMarker.toList.head? ≠ some mc)
    (hfree : artifactFree s) : artifactFree (m ++ s) := by
  obtain ⟨hf, hi, hmt, hn⟩ := hfree
  refine ⟨?_, ?_, ?_, ?_⟩
  · rw [jsIncludes_marker_cons m s fenceMarker mc hm h1 (by decide)]
    exact hf
  · rw [jsIncludes_marker_cons m s iveMarker mc hm h2 (by decide)]
    exact hi
  · rw [jsIncludes_marker_cons m s maintainedMarker mc hm h3 (by decide)]
    exact hmt
  · rw [jsIncludes_marker_cons m s noNewlineMarker mc hm h4 (by decide)]
    exact hn

/-- A marked artifact-free line is itself artifact-free: the space,
minus and plus markers head none of the four patterns. -/
theorem markedLine_artifactFree (l : String) (hm : markedLine artifactFree l) :
    artifactFree l := by
  obtain ⟨s, hfree, hcase⟩ := hm
  rcases hcase with rfl | rfl | rfl
  · exact artifactFree_marker " " s ' ' rfl (by decide) (by decide) (by decide)
      (by decide) hfree
  · exact artifactFree_marker "-" s '-' rfl (by decide) (by decide) (by decide)
      (by decide) hfree
  · exact artifactFree_marker "+" s '+' rfl (by decide) (by decide) (by decide)
      (by decide) hfree

theorem cleanDiffLine_id_of_marked (l : String) (hm : markedLine artifactFree l) :
    cleanDiffLine l = l := by
  obtain ⟨hf, hi, hmt, _⟩ := markedLine_artifactFree l hm
  rw [cleanDiffLine, hf, hi, hmt]
  rfl

theorem cleanDiffOutput_id (d : Diff)
    (h : ∀ hk ∈ d.hunks, ∀ l ∈ hk.lines, markedLine artifactFree l) :
    cleanDiffOutput d = d := by
  have hmap : d.hunks.map (fun hunk =>
      { hunk with lines :=
          (hunk.lines.filter (fun line => ¬ jsIncludes line noNewlineMarker)).map cleanDiffLine }) = d.hunks := by
    have : ∀ hk ∈ d.hunks, (fun hunk =>
        ({ hunk with lines :=
            (hunk.lines.filter (fun line => ¬ jsIncludes line noNewlineMarker)).map cleanDiffLine } : Hunk)) hk = id hk := by
      intro hk hhk
      show ({ hk with lines :=
          (hk.lines.filter (fun line => ¬ jsIncludes line noNewlineMarker)).map cleanDiffLine } : Hunk) = hk
      have hfil : hk.lines.filter (fun line => ¬ jsIncludes line noNewlineMarker)
          = hk.lines := by
        apply List.filter_eq_self.mpr
        intro l hl
        have := (markedLine_artifactFree l (h hk hhk l hl)).2.2.2
        simp [this]
      rw [hfil]
      have hmapl : hk.lines.map cleanDiffLine = hk.lines := by
        have := List.map_congr_left (fun l hl =>
          cleanDiffLine_id_of_marked l (h hk hhk l hl))
        rw [this, List.map_id']
      rw [hmapl]
    rw [List.map_congr_left this, List.map_id]
  show ({ hunks := d.hunks.map _ } : Diff) = d
  rw [hmap]

/-! ### Contents of the annotated projection -/

theorem getD_mem_or_default (lines : List String) (n : Nat) (dflt : String) :
    lines.getD n dflt ∈ lines ∨ lines.getD n dflt = dflt := by
  by_cases hn : n < lines.length
  · left
    rw [List.getD_eq_getElem lines dflt hn]
    exact List.getElem_mem hn
  · right
    rw [List.getD_eq_default lines dflt (by omega)]

theorem copyRange_mem (lines : List String) (cur target : Nat) :
    ∀ s ∈ copyRange lines cur target, s ∈ lines ∨ s = "" := by
  intro s hs
  obtain ⟨k, _, hk⟩ := List.mem_map.mp hs
  rw [← hk]
  exact getD_mem_or_default lines (cur + k) ""

theorem annotateHunkLines_unchanged_mem (lines : List String) :
    ∀ (hl : List String) (cur : Nat) (s : String),
      .unchanged s ∈ (annotateHunkLines lines hl cur).1 → s ∈ lines ∨ s = "" := by
  intro hl
  induction hl with
  | nil =>
    intro cur s hs
    exact absurd hs (List.not_mem_nil _)
  | cons l ls ih =>
    intro cur s hs
    by_cases h1 : jsStartsWith l "-" = true
    · rw [annotateHunkLines_del lines l ls cur h1, List.mem_cons] at hs
      rcases hs with hs | hs
      · exact absurd hs (by simp)
      · exact ih (cur + 1) s hs
    · by_cases h2 : jsStartsWith l "+" = true
      · rw [annotateHunkLines_add lines l ls cur (by simpa using h1) h2,
          List.mem_cons] at hs
        rcases hs with hs | hs
        · exact absurd hs (by simp)
        · exact ih cur s hs
      · rw [annotateHunkLines_ctx lines l ls cur (by simpa using h1) (by simpa using h2),
          List.mem_cons] at hs
        rcases hs with hs | hs
        · injection hs with hs
          rw [hs]
          exact getD_mem_or_default lines cur ""
        · exact ih (cur + 1) s hs

theorem annotateHunkLines_removed_mem (lines : List String) :
    ∀ (hl : List String) (cur : Nat) (s : String),
      .removed s ∈ (annotateHunkLines lines hl cur).1 → s ∈ lines ∨ s = "undefined" := by
  intro hl
  induction hl with
  | nil =>
    intro cur s hs
    exact absurd hs (List.not_mem_nil _)
  | cons l ls ih =>
    intro cur s hs
    by_cases h1 : jsStartsWith l "-" = true
    · rw [annotateHunkLines_del lines l ls cur h1, List.mem_cons] at hs
      rcases hs with hs | hs
      · injection hs with hs
        rw [hs]
        exact getD_mem_or_default lines cur "undefined"
      · exact ih (cur + 1) s hs
    · by_cases h2 : jsStartsWith l "+" = true
      · rw [annotateHunkLines_add lines l ls cur (by simpa using h1) h2,
          List.mem_cons] at hs
        rcases hs with hs | hs
        · exact absurd hs (by simp)
        · exact ih cur s hs
      · rw [annotateHunkLines_ctx lines l ls cur (by simpa using h1) (by simpa using h2),
          List.mem_cons] at hs
        rcases hs with hs | hs
        · exact absurd hs (by simp)
        · exact ih (cur + 1) s hs

theorem annotateHunks_unchanged_mem (lines : List String) :
    ∀ (hunks : List Hunk) (cur : Nat) (s : String),
      .unchanged s ∈ annotateHunks lines cur hunks → s ∈ lines ∨ s = "" := by
  intro hunks
  induction hunks with
  | nil =>
    intro cur s hs
    rw [annotateHunks_nil] at hs
    obtain ⟨x, hx, hxe⟩ := List.mem_map.mp hs
    injection hxe with hxe
    rw [← hxe]
    exact copyRange_mem lines cur lines.length x hx
  | cons h rest ih =>
    intro cur s hs
    rw [annotateHunks_cons, List.mem_append, List.mem_append] at hs
    rcases hs with (hs | hs) | hs
    · obtain ⟨x, hx, hxe⟩ := List.mem_map.mp hs
      injection hxe with hxe
      rw [← hxe]
      exact copyRange_mem lines _ _ x hx
    · exact annotateHunkLines_unchanged_mem lines h.lines _ s hs
    · exact ih _ s hs

theorem annotateHunks_removed_mem (lines : List String) :
    ∀ (hunks : List Hunk) (cur : Nat) (s : String),
      .removed s ∈ annotateHunks lines cur hunks → s ∈ lines ∨ s = "undefined" := by
  intro hunks
  induction hunks with
  | nil =>
    intro cur s hs
    rw [annotateHunks_nil] at hs
    obtain ⟨x, _, hxe⟩ := List.mem_map.mp hs
    exact absurd hxe (by simp)
  | cons h rest ih =>
    intro cur s hs
    rw [annotateHunks_cons, List.mem_append, List.mem_append] at hs
    rcases hs with (hs | hs) | hs
    · obtain ⟨x, _, hxe⟩ := List.mem_map.mp hs
      exact absurd hxe (by simp)
    · exact annotateHunkLines_removed_mem lines h.lines _ s hs
    · exact ih _ s hs

theorem added_mem_newSideLines (anns : List AnnotatedLine) (s : String)
    (h : .added s ∈ anns) : s ∈ newSideLines anns :=
  List.mem_filterMap.mpr ⟨.added s, h, rfl⟩

/-! ### `applySourceView` over rendered annotated lines -/

theorem newSideLines_unchanged_cons (s : String) (rest : List AnnotatedLine) :
    newSideLines (.unchanged s :: rest) = s :: newSideLines rest := rfl

theorem newSideLines_removed_cons (s : String) (rest : List AnnotatedLine) :
    newSideLines (.removed s :: rest) = newSideLines rest := rfl

theorem newSideLines_added_cons (s : String) (rest : List AnnotatedLine) :
    newSideLines (.added s :: rest) = s :: newSideLines rest := rfl

/-- Deleting the `'-'` lines of the rendered annotated view and
stripping the `'+'` markers (the `acceptButton` source-view apply
transformation) yields exactly the new-side lines, provided no
unchanged content itself starts with a marker. -/
theorem render_filter_strip : ∀ (anns : List AnnotatedLine),
    (∀ s, .unchanged s ∈ anns →
      jsStartsWith s "-" = false ∧ jsStartsWith s "+" = false) →
    ((anns.map renderAnnotated).filter fun line => ¬ jsStartsWith line "-").map
        (fun line => if jsStartsWith line "+" then jsSubstr1 line else line)
      = newSideLines anns := by
  intro anns
  induction anns with
  | nil => intro _; rfl
  | cons a rest ih =>
    intro hunch
    have ihrest := ih fun s hs => hunch s (List.mem_cons_of_mem a hs)
    rcases a with s | s | s
    · obtain ⟨hs1, hs2⟩ := hunch s (List.mem_cons_self _ _)
      rw [List.map_cons, show renderAnnotated (.unchanged s) = s from rfl,
        List.filter_cons_of_pos (by simp [hs1]), List.map_cons, if_neg (by simp [hs2]),
        ihrest, newSideLines_unchanged_cons]
    · rw [List.map_cons, show renderAnnotated (.removed s) = "-" ++ s from rfl,
        List.filter_cons_of_neg (by simp [jsStartsWith_dash_append]),
        ihrest, newSideLines_removed_cons]
    · rw [List.map_cons, show renderAnnotated (.added s) = "+" ++ s from rfl,
        List.filter_cons_of_pos (by simp [jsStartsWith_plus_dash]),
        List.map_cons, if_pos (by simp [jsStartsWith_plus_plus]),
        jsSubstr1_plus, ihrest, newSideLines_added_cons]

/-! ### Claim C10: applying the source view reconstructs the proposed code -/

theorem structuredDiff_eq (c p : String) :
    structuredDiff c p = ⟨buildHunks (.scan 0 0 [])
      (toSegs (lcsDiff ((diffLinesOf c).length + (diffLinesOf p).length)
        (diffLinesOf c) (diffLinesOf p)))⟩ := rfl

theorem diffLinesOf_normalize_sub (t : String) :
    ∀ s ∈ diffLinesOf (normalizeNL t), s ∈ jsSplitNL t := by
  intro s hs
  rw [normalizeNL] at hs
  by_cases he : jsEndsWith t "\n" = true
  · rw [if_pos he, diffLinesOf] at hs
    exact List.dropLast_subset _ hs
  · rw [if_neg he, diffLinesOf, jsSplitNL_append_nl, List.dropLast_concat] at hs
    exact hs

theorem jsSplitNL_decomp (t : String) :
    jsSplitNL t = diffLinesOf (normalizeNL t)
      ++ (if jsEndsWith t "\n" = true then [""] else []) := by
  by_cases he : jsEndsWith t "\n" = true
  · rw [if_pos he, normalizeNL, if_pos he]
    exact jsSplitNL_of_endsWith t he
  · rw [if_neg he, List.append_nil, normalizeNL, if_neg he,
      diffLinesOf, jsSplitNL_append_nl, List.dropLast_concat]

/-- C10 (amended): for every original and proposed text none of whose
own lines start with `'+'` or `'-'`, and none of whose lines contain
the artifacts `cleanDiffOutput` reacts to (a fenced-code marker,
`"I've"`, `"maintained"`, or the no-newline marker), deleting every
`'-'` line of `prepareSourceDiffView original (generateDiff original
proposed)` and stripping the leading `'+'` markers yields exactly the
proposed text up to the trailing-newline normalization performed by
`generateDiff`: the normalized proposed text itself when the original
ends with a newline, and its lines joined without the final newline
otherwise. -/
theorem source_view_apply_reconstructs_proposed (original proposed : String)
    (hmo : ∀ l ∈ jsSplitNL original,
      jsStartsWith l "-" = false ∧ jsStartsWith l "+" = false)
    (hmp : ∀ l ∈ jsSplitNL proposed,
      jsStartsWith l "-" = false ∧ jsStartsWith l "+" = false)
    (hao : ∀ l ∈ jsSplitNL original, artifactFree l)
    (hap : ∀ l ∈ jsSplitNL proposed, artifactFree l) :
    applySourceView (prepareSourceDiffView original (generateDiff original proposed))
      = if jsEndsWith original "\n" = true then normalizeNL proposed
        else joinNL (diffLinesOf (normalizeNL proposed)) := by
  set xs := diffLinesOf (normalizeNL original) with hxs
  set ys := diffLinesOf (normalizeNL proposed) with hys
  set segs := toSegs (lcsDiff (xs.length + ys.length) xs ys) with hsegs
  set hunks := buildHunks (.scan 0 0 []) segs with hhunks
  set lines := jsSplitNL original with hlines
  set trail := (if jsEndsWith original "\n" = true then ([""] : List String) else [])
    with htrail
  have hdec : lines = xs ++ trail := jsSplitNL_decomp original
  have hsound1 : segsOldLines segs = xs := by
    rw [hsegs, (toSegs_sound _).1, (lcsDiff_sound _ _ _).1]
  have hsound2 : segsNewLines segs = ys := by
    rw [hsegs, (toSegs_sound _).2, (lcsDiff_sound _ _ _).2]
  have hgen : generateDiff original proposed = ⟨hunks⟩ := by
    rw [generateDiff_eq, structuredDiff_eq]
    apply cleanDiffOutput_id
    intro hk hhk l hl
    exact (buildHunks_marked artifactFree segs
      (by
        rw [hsound1]
        intro s hs
        exact hao s (diffLinesOf_normalize_sub original s hs))
      (by
        rw [hsound2]
        intro s hs
        exact hap s (diffLinesOf_normalize_sub proposed s hs))).1
      0 0 [] (fun s hs => absurd hs (List.not_mem_nil s)) hk hhk l hl
  set anns := annotateHunks lines 0 hunks with hannsdef
  have hanns : prepareSourceDiffView original ⟨hunks⟩
      = joinNL (anns.map renderAnnotated) := by
    show joinNL ((hunks.foldl (stepHunk lines) ([], 0)).1
        ++ copyRange lines (hunks.foldl (stepHunk lines) ([], 0)).2 lines.length)
      = joinNL (anns.map renderAnnotated)
    rw [foldl_stepHunk_render lines hunks [] 0, List.nil_append]
  have hnewside : newSideLines anns = ys ++ trail := by
    have hm := (buildHunks_newSide lines trail segs).1 0 0 [] 0 []
      (by rw [List.nil_append, hsound1]; exact hdec) rfl (le_refl 0)
      (by intro ops rest hr; decide)
    rw [hsound2, ← hhunks, ← hannsdef] at hm
    simpa using hm
  have hysne : ys ≠ [] := diffLinesOf_normalize_ne_nil proposed
  have hannsne : anns.map renderAnnotated ≠ [] := by
    intro hnil
    have hae : anns = [] := List.map_eq_nil_iff.mp hnil
    have h0 : ys ++ trail = [] := by
      rw [← hnewside, hae]
      rfl
    exact hysne (List.append_eq_nil.mp h0).1
  have hnl : ∀ r ∈ anns.map renderAnnotated, '\n' ∉ r.toList := by
    intro r hr
    obtain ⟨a, ha, rfl⟩ := List.mem_map.mp hr
    rcases a with s | s | s
    · have hsm := annotateHunks_unchanged_mem lines hunks 0 s ha
      show '\n' ∉ s.toList
      rcases hsm with hsm | rfl
      · exact jsSplitNL_no_nl original s hsm
      · decide
    · have hsm := annotateHunks_removed_mem lines hunks 0 s ha
      show '\n' ∉ ("-" ++ s).toList
      rw [toList_append]
      intro hmem
      rcases List.mem_append.mp hmem with hmem | hmem
      · revert hmem
        decide
      · rcases hsm with hsm | rfl
        · exact jsSplitNL_no_nl original s hsm hmem
        · revert hmem
          decide
    · have hsm := added_mem_newSideLines anns s ha
      rw [hnewside] at hsm
      show '\n' ∉ ("+" ++ s).toList
      rw [toList_append]
      intro hmem
      rcases List.mem_append.mp hmem with hmem | hmem
      · revert hmem
        decide
      · rcases List.mem_append.mp hsm with hsm | hsm
        · exact jsSplitNL_no_nl proposed s (diffLinesOf_normalize_sub proposed s hsm) hmem
        · have hse : s = "" := by
            rw [htrail] at hsm
            by_cases he : jsEndsWith original "\n" = true
            · rw [if_pos he] at hsm
              exact List.mem_singleton.mp hsm
            · rw [if_neg he] at hsm
              exact absurd hsm (List.not_mem_nil s)
          subst hse
          revert hmem
          decide
  have hunch_ok : ∀ s, .unchanged s ∈ anns →
      jsStartsWith s "-" = false ∧ jsStartsWith s "+" = false := by
    intro s hs
    rcases annotateHunks_unchanged_mem lines hunks 0 s hs with hm | rfl
    · exact hmo s hm
    · exact ⟨by decide, by decide⟩
  rw [hgen, hanns, applySourceView, jsSplitNL_joinNL _ hannsne hnl,
    render_filter_strip anns hunch_ok, hnewside]
  by_cases he : jsEndsWith original "\n" = true
  · rw [htrail]
    rw [if_pos he, if_pos he]
    have hp : jsSplitNL (normalizeNL proposed) = ys ++ [""] :=
      jsSplitNL_of_endsWith _ (normalizeNL_endsWith proposed)
    rw [← hp, joinNL_jsSplitNL]
  · rw [htrail]
    rw [if_neg he, if_neg he, List.append_nil]

instance artifactFree_dec (s : String) : Decidable (artifactFree s) := by
  unfold artifactFree
  infer_instance


/-- C10 counterexample to the unamended claim: the lines of `"a"` and
`"x```y"` start with neither `'+'` nor `'-'`, yet applying the source
view of their diff yields `"x"` — not the proposed text under either
trailing-newline normalization — because `cleanDiffOutput` truncates
the hunk line `"+x```y"` at the fenced-code marker. -/
theorem source_view_apply_counterexample :
    (∀ l ∈ jsSplitNL "a", jsStartsWith l "-" = false ∧ jsStartsWith l "+" = false)
      ∧ (∀ l ∈ jsSplitNL "x```y",
          jsStartsWith l "-" = false ∧ jsStartsWith l "+" = false)
      ∧ applySourceView (prepareSourceDiffView "a" (generateDiff "a" "x```y")) = "x"
      ∧ applySourceView (prepareSourceDiffView "a" (generateDiff "a" "x```y")) ≠ "x```y"
      ∧ applySourceView (prepareSourceDiffView "a" (generateDiff "a" "x```y"))
          ≠ "x```y\n" := by
  decide

/-- Witness for C10: the amended roundtrip theorem applied to a
concrete artifact-free original and proposed text. -/
theorem source_view_apply_reconstructs_proposed_witness :
    (∀ l ∈ jsSplitNL "a\nb\n", jsStartsWith l "-" = false ∧ jsStartsWith l "+" = false)
      ∧ (∀ l ∈ jsSplitNL "a\nc\n", jsStartsWith l "-" = false ∧ jsStartsWith l "+" = false)
      ∧ (∀ l ∈ jsSplitNL "a\nb\n", artifactFree l)
      ∧ (∀ l ∈ jsSplitNL "a\nc\n", artifactFree l)
      ∧ applySourceView (prepareSourceDiffView "a\nb\n" (generateDiff "a\nb\n" "a\nc\n"))
          = if jsEndsWith "a\nb\n" "\n" = true then normalizeNL "a\nc\n"
            else joinNL (diffLinesOf (normalizeNL "a\nc\n")) :=
  ⟨by decide, by decide, by decide, by decide,
   source_view_apply_reconstructs_proposed "a\nb\n" "a\nc\n" (by decide) (by decide)
     (by decide) (by decide)⟩

/-! ## Concrete evaluations

Closed-form checks that the executable definitions compute what the
source computes on small inputs. -/

example : jsSplitNL "a\nb\n" = ["a", "b", ""] := by decide
example : jsSplitNL "" = [""] := by decide
example : joinNL ["a", "b", ""] = "a\nb\n" := by decide
example : cleanDiffLine "+x```y" = "+x" := by decide
example : cleanDiffLine " keep me" = " keep me" := by decide
example : jsTrim "  a b  " = "a b" := by decide

example :
    prepareSourceDiffView "a\nb\nc\nd\n"
      ⟨[⟨2, 2, 2, 2, [" b", "-c", "+X"]⟩]⟩ = "a\nb\n-c\n+X\nd\n" := by decide

example :
    wfHunksFrom (jsSplitNL "a\nb\nc\nd\n") 0 [⟨2, 2, 2, 2, [" b", "-c", "+X"]⟩] = true := by
  decide
